import Mathlib

/-!
Verification of the sparse assembly core of `pyiga/assemble_tools_cy.pyx`.

The Cython source is shallowly embedded: machine integers become `Nat`/`Int`,
IEEE doubles become exact rationals (`ℚ`), raw C arrays become Lean lists or
functions, and the `while` loops of the traversal drivers become fueled
recursions together with lemmas showing the fuel supplied is always enough.
-/

namespace PyIga

/-! ## Intervals (struct `IntInterval` and helpers, lines 154-165) -/

/-- `IntInterval` from the source: a half-open interval `[a, b)` of `int`s. -/
structure IntInterval where
  a : ℤ
  b : ℤ
  deriving DecidableEq, Repr

/-- `make_intv(a, b)` (source line 158). -/
def make_intv (a b : ℤ) : IntInterval := ⟨a, b⟩

/-- `intersect_intervals` (source line 164): componentwise max/min. -/
def intersect_intervals (intva intvb : IntInterval) : IntInterval :=
  make_intv (max intva.a intvb.a) (min intva.b intvb.b)

/-- Two half-open intervals overlap iff their intersection is nonempty. -/
def intervalsOverlap (intva intvb : IntInterval) : Prop :=
  max intva.a intvb.a < min intva.b intvb.b

instance (intva intvb : IntInterval) : Decidable (intervalsOverlap intva intvb) := by
  unfold intervalsOverlap; infer_instance

/-! ## `find_joint_support_functions` (source lines 192-207)

A mesh-support table is a list of half-open intervals, one per basis function.
The source scans left from `i` while `meshsupp[j,1] > meshsupp[i,0]`, recording
the last passing index in `minj`, then scans right from `i+1` while
`meshsupp[j,0] < meshsupp[i,1]`, recording the last passing index in `maxj`,
and returns `[minj, maxj+1)`. -/

/-- One mesh-support table: for each function index the half-open interval of
mesh elements on which it is supported (`ssize_t[:,::1] meshsupp`). -/
abbrev SupportTable := List IntInterval

/-- Table lookup, defaulting to the empty interval `[0,0)` out of range. -/
def suppAt (ms : SupportTable) (j : ℕ) : IntInterval := ms.getD j ⟨0, 0⟩

/-- The left scan of `find_joint_support_functions`: starting at `j` with
current best `minj`, while `meshsupp[j].b > meshsupp[i].a` record `j` and
step left; the `j >= 0` guard of the source becomes the `Nat` base case. -/
def scanLeft (ms : SupportTable) (ai : ℤ) : ℕ → ℕ → ℕ
  | 0, minj => if (suppAt ms 0).b > ai then 0 else minj
  | j + 1, minj => if (suppAt ms (j + 1)).b > ai then scanLeft ms ai j (j + 1) else minj

/-- The right scan of `find_joint_support_functions`: starting at `j` with
current best `maxj`, while `j < n ∧ meshsupp[j].a < meshsupp[i].b` record `j`
and step right.  `fuel` bounds the iteration count; any `fuel ≥ n - j` is
exact because the guard `j < n` stops the loop. -/
def scanRight (ms : SupportTable) (bi : ℤ) (n : ℕ) : ℕ → ℕ → ℕ → ℕ
  | 0, _, maxj => maxj
  | f + 1, j, maxj =>
      if j < n ∧ (suppAt ms j).a < bi then scanRight ms bi n f (j + 1) j
      else maxj

/-- `find_joint_support_functions(meshsupp, i)` (source lines 192-207):
returns the interval `[minj, maxj+1)` of neighbor function indices.
Fuel `n` always dominates the iteration count of the right scan because the
guard `j < n` stops it. -/
def find_joint_support_functions (ms : SupportTable) (i : ℕ) : ℕ × ℕ :=
  let minj := scanLeft ms (suppAt ms i).a i i
  let maxj := scanRight ms (suppAt ms i).b ms.length ms.length (i + 1) i
  (minj, maxj + 1)

/-! Invariants of B-spline mesh-support tables. -/

/-- Left endpoints are non-decreasing in the function index. -/
def LeftSorted (ms : SupportTable) : Prop :=
  ∀ q, q < ms.length → ∀ p, p ≤ q → (suppAt ms p).a ≤ (suppAt ms q).a

/-- Right endpoints are non-decreasing in the function index. -/
def RightSorted (ms : SupportTable) : Prop :=
  ∀ q, q < ms.length → ∀ p, p ≤ q → (suppAt ms p).b ≤ (suppAt ms q).b

/-- Every interval of the table is nonempty. -/
def AllNonempty (ms : SupportTable) : Prop :=
  ∀ p : ℕ, p < ms.length → (suppAt ms p).a < (suppAt ms p).b

instance (ms : SupportTable) : Decidable (LeftSorted ms) := by
  unfold LeftSorted; infer_instance

instance (ms : SupportTable) : Decidable (RightSorted ms) := by
  unfold RightSorted; infer_instance

instance (ms : SupportTable) : Decidable (AllNonempty ms) := by
  unfold AllNonempty; infer_instance

/-! Characterization of the two scans. -/

lemma scanLeft_of_not (ms : SupportTable) (ai : ℤ) (j minj : ℕ)
    (h : ¬ (suppAt ms j).b > ai) : scanLeft ms ai j minj = minj := by
  cases j <;> simp [scanLeft, h]

lemma scanLeft_spec (ms : SupportTable) (ai : ℤ) :
    ∀ j minj, (suppAt ms j).b > ai →
      scanLeft ms ai j minj ≤ j ∧
      (∀ k, scanLeft ms ai j minj ≤ k → k ≤ j → (suppAt ms k).b > ai) ∧
      (0 < scanLeft ms ai j minj →
        ¬ (suppAt ms (scanLeft ms ai j minj - 1)).b > ai) := by
  intro j
  induction j with
  | zero =>
      intro minj h
      simp only [scanLeft, if_pos h]
      refine ⟨le_refl 0, fun k _ hk0 => ?_, by omega⟩
      interval_cases k
      exact h
  | succ j ih =>
      intro minj h
      have hrec : scanLeft ms ai (j + 1) minj = scanLeft ms ai j (j + 1) := by
        simp only [scanLeft, if_pos h]
      by_cases hj : (suppAt ms j).b > ai
      · obtain ⟨h1, h2, h3⟩ := ih (j + 1) hj
        rw [hrec]
        refine ⟨h1.trans (Nat.le_succ j), fun k hk1 hk2 => ?_, h3⟩
        rcases Nat.lt_succ_iff_lt_or_eq.mp (Nat.lt_succ_of_le hk2) with hlt | heq
        · exact h2 k hk1 (Nat.lt_succ_iff.mp hlt)
        · rw [heq]; exact h
      · rw [hrec, scanLeft_of_not ms ai j (j + 1) hj]
        refine ⟨le_refl _, fun k hk1 hk2 => ?_, fun _ => by simpa using hj⟩
        have : k = j + 1 := le_antisymm hk2 hk1
        rw [this]; exact h

lemma scanRight_spec (ms : SupportTable) (bi : ℤ) (n : ℕ) :
    ∀ fuel j maxj, n ≤ fuel + j →
      ((j < n ∧ (suppAt ms j).a < bi) →
        j ≤ scanRight ms bi n fuel j maxj ∧
        scanRight ms bi n fuel j maxj < n ∧
        (∀ k, j ≤ k → k ≤ scanRight ms bi n fuel j maxj → (suppAt ms k).a < bi) ∧
        ¬ (scanRight ms bi n fuel j maxj + 1 < n ∧
            (suppAt ms (scanRight ms bi n fuel j maxj + 1)).a < bi)) ∧
      (¬ (j < n ∧ (suppAt ms j).a < bi) → scanRight ms bi n fuel j maxj = maxj) := by
  intro fuel
  induction fuel with
  | zero =>
      intro j maxj hn
      constructor
      · intro hQ; omega
      · intro _; rfl
  | succ fuel ih =>
      intro j maxj hn
      constructor
      · intro hQ
        have hrec : scanRight ms bi n (fuel + 1) j maxj =
            scanRight ms bi n fuel (j + 1) j := by
          simp only [scanRight, if_pos hQ]
        rw [hrec]
        by_cases hQ1 : (j + 1 < n ∧ (suppAt ms (j + 1)).a < bi)
        · obtain ⟨h1, h2, h3, h4⟩ := (ih (j + 1) j (by omega)).1 hQ1
          refine ⟨by omega, h2, fun k hk1 hk2 => ?_, h4⟩
          rcases Nat.eq_or_lt_of_le hk1 with heq | hlt
          · rw [← heq]; exact hQ.2
          · exact h3 k hlt hk2
        · have heq : scanRight ms bi n fuel (j + 1) j = j := (ih (j + 1) j (by omega)).2 hQ1
          rw [heq]
          exact ⟨le_refl _, hQ.1, fun k hk1 hk2 => by
            have : k = j := le_antisymm hk2 hk1
            rw [this]; exact hQ.2, hQ1⟩
      · intro hQ
        simp only [scanRight, if_neg hQ]

lemma intervalsOverlap_iff (p q : IntInterval) :
    intervalsOverlap p q ↔ p.a < p.b ∧ p.a < q.b ∧ q.a < p.b ∧ q.a < q.b := by
  unfold intervalsOverlap
  constructor
  · intro h
    rcases max_lt_iff.mp h with ⟨h1, h2⟩
    rcases lt_min_iff.mp h1 with ⟨h11, h12⟩
    rcases lt_min_iff.mp h2 with ⟨h21, h22⟩
    exact ⟨h11, h12, h21, h22⟩
  · rintro ⟨h1, h2, h3, h4⟩
    exact max_lt_iff.mpr ⟨lt_min_iff.mpr ⟨h1, h2⟩, lt_min_iff.mpr ⟨h3, h4⟩⟩

/-- Bounds of the returned neighbor range: it always brackets `i` itself
(whenever the support interval of `i` is nonempty), and stays inside the
table. -/
lemma find_joint_bounds (ms : SupportTable) (i : ℕ) (hi : i < ms.length)
    (hne : (suppAt ms i).a < (suppAt ms i).b) :
    (find_joint_support_functions ms i).1 ≤ i ∧
    i < (find_joint_support_functions ms i).2 ∧
    (find_joint_support_functions ms i).2 ≤ ms.length := by
  simp only [find_joint_support_functions]
  obtain ⟨hm1, _, _⟩ := scanLeft_spec ms (suppAt ms i).a i i hne
  have hS := scanRight_spec ms (suppAt ms i).b ms.length ms.length (i + 1) i (by omega)
  by_cases hQ : (i + 1 < ms.length ∧ (suppAt ms (i + 1)).a < (suppAt ms i).b)
  · obtain ⟨hr1, hr2, _, _⟩ := hS.1 hQ
    exact ⟨hm1, by omega, by omega⟩
  · have heq := hS.2 hQ
    rw [heq]
    exact ⟨hm1, by omega, by omega⟩

/-- Under the B-spline invariants (both endpoints non-decreasing, all
intervals nonempty), the interval returned by
`find_joint_support_functions` contains exactly the function indices whose
support overlaps that of `i`. -/
lemma neighbor_range_iff_overlap (ms : SupportTable) (i : ℕ) (hi : i < ms.length)
    (hL : LeftSorted ms) (hR : RightSorted ms) (hNE : AllNonempty ms) :
    ∀ j, j < ms.length →
      ((find_joint_support_functions ms i).1 ≤ j ∧
        j < (find_joint_support_functions ms i).2 ↔
        intervalsOverlap (suppAt ms j) (suppAt ms i)) := by
  intro j hj
  have hnei := hNE i hi
  have hnej := hNE j hj
  unfold find_joint_support_functions
  obtain ⟨hm1, hm2, hm3⟩ := scanLeft_spec ms (suppAt ms i).a i i hnei
  have hS := scanRight_spec ms (suppAt ms i).b ms.length ms.length (i + 1) i (by omega)
  set minj := scanLeft ms (suppAt ms i).a i i with hminj
  set maxj := scanRight ms (suppAt ms i).b ms.length ms.length (i + 1) i with hmaxj
  simp only
  rw [intervalsOverlap_iff]
  constructor
  · rintro ⟨hlo, hhi⟩
    rcases le_or_lt j i with hji | hji
    · have hbj := hm2 j hlo hji
      exact ⟨hnej, lt_of_le_of_lt (hL i hi j hji) hnei, hbj, hnei⟩
    · have hjm : j ≤ maxj := by omega
      by_cases hQ : (i + 1 < ms.length ∧ (suppAt ms (i + 1)).a < (suppAt ms i).b)
      · obtain ⟨hr1, hr2, hr3, hr4⟩ := hS.1 hQ
        have haj := hr3 j (by omega) hjm
        exact ⟨hnej, haj, lt_of_le_of_lt (hL j hj i hji.le) hnej, hnei⟩
      · have heq := hS.2 hQ
        omega
  · rintro ⟨o1, o2, o3, o4⟩
    rcases le_or_lt j i with hji | hji
    · constructor
      · by_contra hcon
        push_neg at hcon
        have hpos : 0 < minj := by omega
        have hstop := hm3 hpos
        have hmle : minj - 1 < ms.length := by omega
        have := hR (minj - 1) hmle j (by omega)
        omega
      · have hmj : i ≤ maxj := by
          by_cases hQ : (i + 1 < ms.length ∧ (suppAt ms (i + 1)).a < (suppAt ms i).b)
          · obtain ⟨hr1, _, _, _⟩ := hS.1 hQ
            omega
          · have := hS.2 hQ; omega
        omega
    · have hQ : (i + 1 < ms.length ∧ (suppAt ms (i + 1)).a < (suppAt ms i).b) := by
        refine ⟨by omega, ?_⟩
        exact lt_of_le_of_lt (hL j hj (i + 1) (by omega)) o2
      obtain ⟨hr1, hr2, hr3, hr4⟩ := hS.1 hQ
      constructor
      · omega
      · by_contra hcon
        push_neg at hcon
        have h1 : maxj + 1 < ms.length := by omega
        have h2 : (suppAt ms (maxj + 1)).a < (suppAt ms i).b := by
          exact lt_of_le_of_lt (hL j hj (maxj + 1) (by omega)) o2
        exact hr4 ⟨h1, h2⟩

/-! ## Claims C3 and C9 -/

/-- A table whose left endpoints are non-decreasing but whose right endpoints
are not: function 0 reaches further right than its successors. -/
def c3Table : SupportTable := [⟨0, 5⟩, ⟨1, 2⟩, ⟨2, 4⟩]

/-- Claim C3, counterexample: with only the left endpoints sorted,
`find_joint_support_functions` misses overlapping neighbors.  On `c3Table`
(left endpoints 0,1,2 non-decreasing) and `i = 2`, the scan returns `[2,3)`,
yet function 0 (support `[0,5)`) overlaps function 2 (support `[2,4)`) and
lies outside the returned range — a brute-force scan would include it. -/
theorem claim_C3_counterexample :
    LeftSorted c3Table ∧
    find_joint_support_functions c3Table 2 = (2, 3) ∧
    intervalsOverlap (suppAt c3Table 0) (suppAt c3Table 2) ∧
    ¬ (2 ≤ (0 : ℕ)) := by decide

/-- Claim C3 (amended): for every mesh-support table whose intervals are
nonempty and sorted with non-decreasing left AND right endpoints, and every
function index `i` in the table, `find_joint_support_functions` returns
exactly the interval `[lo, hi)` a brute-force overlap scan would produce:
an index `j` of the table lies in `[lo, hi)` iff its support overlaps the
support of `i`. -/
theorem claim_C3_amended (ms : SupportTable) (i : ℕ) (hi : i < ms.length)
    (hL : LeftSorted ms) (hR : RightSorted ms) (hNE : AllNonempty ms)
    (j : ℕ) (hj : j < ms.length) :
    (find_joint_support_functions ms i).1 ≤ j ∧
      j < (find_joint_support_functions ms i).2 ↔
      intervalsOverlap (suppAt ms j) (suppAt ms i) :=
  neighbor_range_iff_overlap ms i hi hL hR hNE j hj

/-- Witness for C3 (amended) on a concrete two-function table. -/
theorem claim_C3_amended_witness :
    (1 < ([⟨0, 2⟩, ⟨1, 3⟩] : SupportTable).length ∧
      LeftSorted [⟨0, 2⟩, ⟨1, 3⟩] ∧ RightSorted [⟨0, 2⟩, ⟨1, 3⟩] ∧
      AllNonempty [⟨0, 2⟩, ⟨1, 3⟩]) ∧
    ((find_joint_support_functions [⟨0, 2⟩, ⟨1, 3⟩] 0).1 ≤ 1 ∧
      1 < (find_joint_support_functions [⟨0, 2⟩, ⟨1, 3⟩] 0).2 ↔
      intervalsOverlap (suppAt [⟨0, 2⟩, ⟨1, 3⟩] 1) (suppAt [⟨0, 2⟩, ⟨1, 3⟩] 0)) :=
  ⟨⟨by decide, by decide, by decide, by decide⟩,
    claim_C3_amended [⟨0, 2⟩, ⟨1, 3⟩] 0 (by decide) (by decide) (by decide) (by decide)
      1 (by decide)⟩

/-- Claim C9: for every function index `i` (inside the table) with a nonempty
support interval, the neighbor range `[lo, hi)` returned by
`find_joint_support_functions` satisfies `lo ≤ i < hi`; in particular it is
never empty, so the traversal of `generic_assemble` never sees an empty
per-axis neighbor range. -/
theorem claim_C9 (ms : SupportTable) (i : ℕ) (hi : i < ms.length)
    (hne : (suppAt ms i).a < (suppAt ms i).b) :
    (find_joint_support_functions ms i).1 ≤ i ∧
      i < (find_joint_support_functions ms i).2 ∧
      (find_joint_support_functions ms i).1 < (find_joint_support_functions ms i).2 := by
  obtain ⟨h1, h2, _⟩ := find_joint_bounds ms i hi hne
  exact ⟨h1, h2, by omega⟩

/-- Witness for C9 on a concrete table. -/
theorem claim_C9_witness :
    (1 < ([⟨0, 2⟩, ⟨1, 3⟩] : SupportTable).length ∧
      (suppAt [⟨0, 2⟩, ⟨1, 3⟩] 1).a < (suppAt [⟨0, 2⟩, ⟨1, 3⟩] 1).b) ∧
    ((find_joint_support_functions [⟨0, 2⟩, ⟨1, 3⟩] 1).1 ≤ 1 ∧
      1 < (find_joint_support_functions [⟨0, 2⟩, ⟨1, 3⟩] 1).2 ∧
      (find_joint_support_functions [⟨0, 2⟩, ⟨1, 3⟩] 1).1 <
        (find_joint_support_functions [⟨0, 2⟩, ⟨1, 3⟩] 1).2) :=
  ⟨⟨by decide, by decide⟩, claim_C9 [⟨0, 2⟩, ⟨1, 3⟩] 1 (by decide) (by decide)⟩

/-! ## `MatrixEntryAccumulator` (source lines 107-147)

The accumulator's `double[::1] _result` buffer is modelled as raw memory
indexed by `ℤ` (the source compiles with `boundscheck(False)`, so a write at
cursor `-1` or past `N` silently lands outside the buffer); the `result`
property only ever exposes slots `0 … idx`.  Values are exact rationals.
An input row carries its index tuple as a `List ℕ` (read through `getD`, as
the source reads `indices[i, k]`) and its `double` value. -/

/-- The `0xffffffff` fill of `old_indices` (source line 119). -/
def sentinelIndex : ℕ := 4294967295

/-- The state of a `MatrixEntryAccumulator`: output cursor `idx`
(`ssize_t`, starts at `-1`), the `old_indices` slots, and the raw result
memory. -/
structure MEAState where
  idx : ℤ
  old : ℕ → ℕ
  res : ℤ → ℚ

/-- `MatrixEntryAccumulator.__init__`: cursor `-1`, every `old_indices` slot
filled with `0xffffffff`; the `np.empty(N)` buffer is uninitialized memory,
here an arbitrary `res0`. -/
def mea_init (res0 : ℤ → ℚ) : MEAState := ⟨-1, fun _ => sentinelIndex, res0⟩

/-- `index_changed` (source lines 123-132): true iff the row differs from
`old_indices` in one of the first `num_indices` components. -/
def index_changed (m : ℕ) (old : ℕ → ℕ) (row : List ℕ) : Prop :=
  ∃ k, k < m ∧ row.getD k 0 ≠ old k

instance (m : ℕ) (old : ℕ → ℕ) (row : List ℕ) : Decidable (index_changed m old row) := by
  unfold index_changed; infer_instance

/-- One iteration of the `process` loop (source lines 138-143), returning the
new state together with the buffer slot written. -/
def mea_step (m : ℕ) (st : MEAState) (row : List ℕ) (v : ℚ) : MEAState × ℤ :=
  if index_changed m st.old row then
    (⟨st.idx + 1, fun k => if k < m then row.getD k 0 else st.old k,
      Function.update st.res (st.idx + 1) v⟩, st.idx + 1)
  else
    (⟨st.idx, st.old, Function.update st.res st.idx (st.res st.idx + v)⟩, st.idx)

/-- `process` (source lines 136-143) over a list of rows, also collecting the
sequence of buffer slots written. -/
def mea_process (m : ℕ) : MEAState → List (List ℕ × ℚ) → MEAState × List ℤ
  | st, [] => (st, [])
  | st, (row, v) :: rest =>
      let p := mea_step m st row v
      let q := mea_process m p.1 rest
      (q.1, p.2 :: q.2)

/-- The `result` property (source lines 145-147): the slots `0 … idx`. -/
def mea_result (st : MEAState) : List ℚ :=
  (List.range (st.idx + 1).toNat).map (fun k : ℕ => st.res (k : ℤ))

/-- Two rows agree on their first `m` index components. -/
def rowEq (m : ℕ) (r1 r2 : List ℕ) : Prop := ∀ k, k < m → r1.getD k 0 = r2.getD k 0

instance (m : ℕ) (r1 r2 : List ℕ) : Decidable (rowEq m r1 r2) := by
  unfold rowEq; infer_instance

/-- Specification: the sums of the maximal runs of consecutive rows with
equal index tuples, in input order. -/
def runSums (m : ℕ) : List (List ℕ × ℚ) → List ℚ
  | [] => []
  | (row, v) :: rest =>
      (v + ((rest.takeWhile (fun rv => decide (rowEq m row rv.1))).map Prod.snd).sum) ::
        runSums m (rest.dropWhile (fun rv => decide (rowEq m row rv.1)))
termination_by rows => rows.length
decreasing_by
  simp only [List.length_cons]
  exact Nat.lt_succ_of_le (List.Sublist.length_le (List.dropWhile_sublist _))

lemma mea_process_append (m : ℕ) (st : MEAState) (l1 l2 : List (List ℕ × ℚ)) :
    mea_process m st (l1 ++ l2) =
      ((mea_process m (mea_process m st l1).1 l2).1,
        (mea_process m st l1).2 ++ (mea_process m (mea_process m st l1).1 l2).2) := by
  induction l1 generalizing st with
  | nil => simp [mea_process]
  | cons rv rest ih =>
      obtain ⟨row, v⟩ := rv
      simp only [List.cons_append, mea_process, List.append_eq, ih]

/-- Processing rows that all match the current `old_indices` never moves the
cursor: every value is added into slot `idx`. -/
lemma mea_process_noChange (m : ℕ) :
    ∀ (run : List (List ℕ × ℚ)) (st : MEAState),
      (∀ rv ∈ run, ¬ index_changed m st.old rv.1) →
      (mea_process m st run).1.idx = st.idx ∧
      (mea_process m st run).1.old = st.old ∧
      (∀ t : ℤ, t ≠ st.idx → (mea_process m st run).1.res t = st.res t) ∧
      (mea_process m st run).1.res st.idx = st.res st.idx + (run.map Prod.snd).sum ∧
      (mea_process m st run).2 = List.replicate run.length st.idx := by
  intro run
  induction run with
  | nil => intro st _; simp [mea_process]
  | cons rv rest ih =>
      intro st hno
      obtain ⟨row, v⟩ := rv
      have hnc : ¬ index_changed m st.old row := hno (row, v) (by simp)
      have hstep : mea_step m st row v =
          (⟨st.idx, st.old, Function.update st.res st.idx (st.res st.idx + v)⟩, st.idx) := by
        simp [mea_step, hnc]
      set st1 : MEAState :=
        ⟨st.idx, st.old, Function.update st.res st.idx (st.res st.idx + v)⟩ with hst1
      have hrest : ∀ rv ∈ rest, ¬ index_changed m st1.old rv.1 := by
        intro rv hrv
        exact hno rv (by simp [hrv])
      obtain ⟨h1, h2, h3, h4, h5⟩ := ih st1 hrest
      refine ⟨?_, ?_, ?_, ?_, ?_⟩
      · simpa [mea_process, hstep] using h1
      · simpa [mea_process, hstep] using h2
      · intro t ht
        have := h3 t (by simpa [hst1] using ht)
        simp only [mea_process, hstep]
        rw [this]
        simp [hst1, Function.update_noteq ht]
      · simp only [mea_process, hstep]
        have := h4
        rw [show st.idx = st1.idx from rfl] at this ⊢
        rw [this]
        simp [hst1, Function.update_same]
        ring
      · simp [mea_process, hstep, h5, List.replicate_succ]

/-- Main invariant of `process`: whenever the first row differs from the
current `old_indices`, the run sums are laid out at slots
`idx+1 … idx + #runs`, everything at or below `idx` is untouched, and every
write lands in that same slot range. -/
lemma mea_process_runs (m : ℕ) :
    ∀ (n : ℕ) (rows : List (List ℕ × ℚ)) (st : MEAState), rows.length ≤ n →
      (∀ row v rest, rows = (row, v) :: rest → index_changed m st.old row) →
      (mea_process m st rows).1.idx = st.idx + (runSums m rows).length ∧
      (∀ t : ℤ, t ≤ st.idx → (mea_process m st rows).1.res t = st.res t) ∧
      (∀ r : ℕ, r < (runSums m rows).length →
        (mea_process m st rows).1.res (st.idx + 1 + r) = (runSums m rows).getD r 0) ∧
      (∀ w ∈ (mea_process m st rows).2,
        st.idx + 1 ≤ w ∧ w ≤ st.idx + (runSums m rows).length) := by
  intro n
  induction n with
  | zero =>
      intro rows st hlen _
      have : rows = [] := List.length_eq_zero.mp (Nat.le_zero.mp hlen)
      subst this
      simp [mea_process, runSums]
  | succ n ih =>
      intro rows st hlen hfirst
      match rows with
      | [] => simp [mea_process, runSums]
      | (row, v) :: rest =>
        have hchg : index_changed m st.old row := hfirst row v rest rfl
        have hstep : mea_step m st row v =
            (⟨st.idx + 1, fun k => if k < m then row.getD k 0 else st.old k,
              Function.update st.res (st.idx + 1) v⟩, st.idx + 1) := by
          simp [mea_step, hchg]
        set old1 : ℕ → ℕ := fun k => if k < m then row.getD k 0 else st.old k with hold1
        set st1 : MEAState :=
          ⟨st.idx + 1, old1, Function.update st.res (st.idx + 1) v⟩ with hst1
        set p : List ℕ × ℚ → Bool := fun rv => decide (rowEq m row rv.1) with hp
        set take := rest.takeWhile p with htake
        set drop := rest.dropWhile p with hdrop
        have hsplit : rest = take ++ drop := (List.takeWhile_append_dropWhile p rest).symm
        have hruns : runSums m ((row, v) :: rest) =
            (v + (take.map Prod.snd).sum) :: runSums m drop := by
          rw [runSums]
        -- the run body does not move the cursor
        have hnochg : ∀ rv ∈ take, ¬ index_changed m st1.old rv.1 := by
          intro rv hrv
          have hpeq : rowEq m row rv.1 := by
            have := List.mem_takeWhile_imp hrv
            simpa [hp] using this
          intro hcon
          obtain ⟨k, hk, hne⟩ := hcon
          apply hne
          show rv.1.getD k 0 = st1.old k
          have hko : st1.old k = row.getD k 0 := by simp [hst1, hold1, hk]
          rw [hko]
          exact (hpeq k hk).symm
        obtain ⟨t1, t2, t3, t4, t5⟩ := mea_process_noChange m take st1 hnochg
        set st2 := (mea_process m st1 take).1 with hst2
        -- facts about st2
        have hst2idx : st2.idx = st.idx + 1 := t1
        have hst2old : st2.old = old1 := t2
        have hst2head : st2.res (st.idx + 1) = v + (take.map Prod.snd).sum := by
          have := t4
          rw [show st1.idx = st.idx + 1 from rfl] at this
          rw [this]
          simp [hst1, Function.update_same]
        have hst2low : ∀ t : ℤ, t ≤ st.idx → st2.res t = st.res t := by
          intro t ht
          have := t3 t (by simp only [hst1]; omega)
          rw [this]
          simp only [hst1]
          rw [Function.update_noteq (by omega)]
        -- process the remaining runs
        have hlen2 : drop.length ≤ n := by
          have h1 : drop.length ≤ rest.length := List.Sublist.length_le (List.dropWhile_sublist p)
          have h2 : rest.length + 1 ≤ n + 1 := by simpa using hlen
          omega
        have hfirst2 : ∀ row2 v2 rest2, drop = (row2, v2) :: rest2 →
            index_changed m st2.old row2 := by
          intro row2 v2 rest2 hdeq
          have hpf : p (row2, v2) = false := by
            have h0 : 0 < (rest.dropWhile p).length := by rw [← hdrop, hdeq]; simp
            have := List.dropWhile_get_zero_not p rest h0
            simpa [← hdrop, hdeq] using this
          have hnre : ¬ rowEq m row row2 := by simpa [hp] using hpf
          rw [hst2old]
          obtain ⟨k, hk, hne⟩ : ∃ k, k < m ∧ row.getD k 0 ≠ row2.getD k 0 := by
            by_contra hcon
            push_neg at hcon
            exact hnre fun k hk => hcon k hk
          refine ⟨k, hk, ?_⟩
          have hko : old1 k = row.getD k 0 := by simp [hold1, hk]
          rw [hko]
          exact fun heq => hne heq.symm
        obtain ⟨q1, q2, q3, q4⟩ := ih drop st2 hlen2 hfirst2
        -- assemble
        have hone : mea_process m st [(row, v)] = (st1, [st.idx + 1]) := by
          simp [mea_process, hstep]
        have hsplit2 : (row, v) :: rest = [(row, v)] ++ (take ++ drop) := by
          rw [← hsplit]; rfl
        have hproc : mea_process m st ((row, v) :: rest) =
            ((mea_process m st2 drop).1,
              [st.idx + 1] ++ (List.replicate take.length st1.idx ++
                (mea_process m st2 drop).2)) := by
          rw [hsplit2, mea_process_append, hone, mea_process_append, ← hst2, t5]
        rw [hproc, hruns]
        have hL' : (runSums m drop).length + 1 =
            ((v + (take.map Prod.snd).sum) :: runSums m drop).length := by simp
        refine ⟨?_, ?_, ?_, ?_⟩
        · rw [q1, hst2idx]
          simp only [List.length_cons]
          omega
        · intro t ht
          rw [q2 t (by omega), hst2low t ht]
        · intro r hr
          match r with
          | 0 =>
              have : st.idx + 1 + (0 : ℕ) = st.idx + 1 := by omega
              rw [this, q2 (st.idx + 1) (by omega), hst2head]
              simp
          | Nat.succ r' =>
              have hr' : r' < (runSums m drop).length := by
                simpa using hr
              have harg : st.idx + 1 + (r' + 1 : ℕ) = st2.idx + 1 + r' := by
                rw [hst2idx]; push_cast; ring
              rw [harg, q3 r' hr']
              simp
        · intro w hw
          have hidx1 : st1.idx = st.idx + 1 := rfl
          simp only [List.singleton_append, List.mem_cons, List.mem_append,
            List.mem_replicate, hidx1] at hw
          rcases hw with heq | ⟨_, heq⟩ | hmem
          · subst heq
            simp only [List.length_cons]
            constructor
            · omega
            · push_cast; omega
          · subst heq
            simp only [List.length_cons]
            constructor
            · omega
            · push_cast; omega
          · obtain ⟨hw1, hw2⟩ := q4 w hmem
            rw [hst2idx] at hw1 hw2
            simp only [List.length_cons]
            constructor
            · omega
            · push_cast at hw2 ⊢; omega

lemma range_map_getD (L : List ℚ) :
    (List.range L.length).map (fun k => L.getD k 0) = L := by
  apply List.ext_getElem (by simp)
  intro n h1 h2
  simp only [List.getElem_map, List.getElem_range]
  exact List.getD_eq_getElem L 0 h2

/-! ## Claims C7 and C10 -/

/-- Claim C7, counterexample: a first row whose index tuple is the
all-`0xffffffff` sentinel is treated as a continuation of the (nonexistent)
current run: the value is added at cursor `-1`, outside the buffer, and
`result` exposes zero entries where the claim demands one entry per maximal
run.  (The single-row stream is trivially grouped.) -/
theorem claim_C7_counterexample :
    mea_result (mea_process 1 (mea_init fun _ => 0) [([sentinelIndex], 1)]).1 = [] ∧
    runSums 1 [([sentinelIndex], 1)] = [1] ∧
    ([] : List ℚ) ≠ [1] := by
  refine ⟨by decide, by simp [runSums], by decide⟩

/-- Claim C7 (amended): for every input stream whose FIRST row's index tuple
differs from the all-`0xffffffff` sentinel in at least one of its first
`num_indices` components — mid-stream sentinel rows are handled correctly,
since they are compared against the previous row's tuple, not the initial
sentinel — the accumulator produces exactly one output entry per maximal run
of consecutive rows with equal index tuples, each entry the sum of that
run's values in input order, and `result` exposes exactly the entries
written so far (length = cursor + 1). -/
theorem claim_C7_amended (m : ℕ) (res0 : ℤ → ℚ) (rows : List (List ℕ × ℚ))
    (hns : ∀ row v rest, rows = (row, v) :: rest →
      ∃ k, k < m ∧ row.getD k 0 ≠ sentinelIndex) :
    mea_result (mea_process m (mea_init res0) rows).1 = runSums m rows := by
  obtain ⟨h1, _, h3, _⟩ := mea_process_runs m rows.length rows (mea_init res0) le_rfl
    (fun row v rest heq => by
      obtain ⟨k, hk, hne⟩ := hns row v rest heq
      exact ⟨k, hk, hne⟩)
  unfold mea_result
  rw [h1]
  have hidx : ((mea_init res0).idx + ((runSums m rows).length : ℤ) + 1).toNat =
      (runSums m rows).length := by
    simp [mea_init]
  rw [hidx]
  have hres : ∀ r : ℕ, r < (runSums m rows).length →
      (mea_process m (mea_init res0) rows).1.res r = (runSums m rows).getD r 0 := by
    intro r hr
    have := h3 r hr
    simpa [mea_init, show (-1 : ℤ) + 1 + (r : ℤ) = (r : ℤ) by ring] using this
  calc (List.range (runSums m rows).length).map
        (fun k : ℕ => (mea_process m (mea_init res0) rows).1.res (k : ℤ))
      = (List.range (runSums m rows).length).map (fun k => (runSums m rows).getD k 0) := by
        apply List.map_congr_left
        intro k hk
        exact hres k (List.mem_range.mp hk)
    _ = runSums m rows := range_map_getD _

/-- Witness for C7 (amended): three rows forming two runs, with only the
first-row hypothesis to discharge. -/
theorem claim_C7_amended_witness :
    (∀ row v rest,
      ([([0], (1 : ℚ)), ([0], 2), ([1], 5)] : List (List ℕ × ℚ)) =
        (row, v) :: rest →
      ∃ k, k < 1 ∧ row.getD k 0 ≠ sentinelIndex) ∧
    mea_result (mea_process 1 (mea_init fun _ => 0)
        [([0], (1 : ℚ)), ([0], 2), ([1], 5)]).1 =
      runSums 1 [([0], (1 : ℚ)), ([0], 2), ([1], 5)] :=
  ⟨fun row v rest heq => by
    simp only [List.cons.injEq, Prod.mk.injEq] at heq
    obtain ⟨⟨h1, _⟩, _⟩ := heq
    subst h1
    exact ⟨0, by decide, by decide⟩,
   claim_C7_amended 1 (fun _ => 0) [([0], 1), ([0], 2), ([1], 5)]
    (fun row v rest heq => by
      simp only [List.cons.injEq, Prod.mk.injEq] at heq
      obtain ⟨⟨h1, _⟩, _⟩ := heq
      subst h1
      exact ⟨0, by decide, by decide⟩)⟩

/-- Claim C10: the all-`0xffffffff` tuple acts as the initial "no current
tuple" sentinel — the first row processed after construction starts a new
entry (the write lands at slot `0`, the cursor having moved from `-1`) iff
its tuple differs from the sentinel in one of the first `num_indices`
components; and when no input row's tuple equals the sentinel and the buffer
size `N` is at least the number of distinct consecutive tuple groups, every
write of `process` lands inside `[0, N)`. -/
theorem claim_C10 (m N : ℕ) (res0 : ℤ → ℚ) (row : List ℕ) (v : ℚ)
    (rows : List (List ℕ × ℚ))
    (hns : ∀ rv ∈ rows, ∃ k, k < m ∧ rv.1.getD k 0 ≠ sentinelIndex)
    (hN : (runSums m rows).length ≤ N) :
    ((mea_step m (mea_init res0) row v).2 = 0 ↔
      ∃ k, k < m ∧ row.getD k 0 ≠ sentinelIndex) ∧
    (∀ w ∈ (mea_process m (mea_init res0) rows).2, 0 ≤ w ∧ w < (N : ℤ)) := by
  constructor
  · have hiff : index_changed m (mea_init res0).old row ↔
        ∃ k, k < m ∧ row.getD k 0 ≠ sentinelIndex := Iff.rfl
    by_cases hch : index_changed m (mea_init res0).old row
    · simp only [mea_step, if_pos hch]
      constructor
      · intro _; exact hiff.mp hch
      · intro _; simp [mea_init]
    · simp only [mea_step, if_neg hch]
      constructor
      · intro hzero
        exact absurd hzero (by simp [mea_init])
      · intro hex
        exact absurd (hiff.mpr hex) hch
  · intro w hw
    obtain ⟨_, _, _, h4⟩ := mea_process_runs m rows.length rows (mea_init res0) le_rfl
      (fun row2 v2 rest heq => by
        obtain ⟨k, hk, hne⟩ := hns (row2, v2) (by rw [heq]; simp)
        exact ⟨k, hk, hne⟩)
    obtain ⟨hw1, hw2⟩ := h4 w hw
    simp only [mea_init] at hw1 hw2
    constructor
    · omega
    · have : (runSums m rows).length ≤ (N : ℤ) := by exact_mod_cast hN
      omega

/-- Witness for C10 on concrete data. -/
theorem claim_C10_witness :
    ((∀ rv ∈ [([0], (1 : ℚ)), ([0], 2), ([1], 5)],
        ∃ k, k < 1 ∧ (rv.1 : List ℕ).getD k 0 ≠ sentinelIndex) ∧
      (runSums 1 [([0], (1 : ℚ)), ([0], 2), ([1], 5)]).length ≤ 2) ∧
    (((mea_step 1 (mea_init fun _ => 0) [7] 3).2 = 0 ↔
        ∃ k, k < 1 ∧ ([7] : List ℕ).getD k 0 ≠ sentinelIndex) ∧
      (∀ w ∈ (mea_process 1 (mea_init fun _ => 0)
          [([0], (1 : ℚ)), ([0], 2), ([1], 5)]).2, 0 ≤ w ∧ w < (2 : ℤ))) :=
  ⟨⟨by decide, by norm_num [runSums, List.takeWhile, List.dropWhile, rowEq]⟩,
    claim_C10 1 2 (fun _ => 0) [7] 3 [([0], 1), ([0], 2), ([1], 5)] (by decide)
      (by norm_num [runSums, List.takeWhile, List.dropWhile, rowEq])⟩

/-! ## `chunk_tasks` (source lines 441-445)

`chunk_tasks(tasks, num_chunks)` with `tasks = range(n)` computes the slice
size `sz = n // num_chunks + 1` and yields the slices
`tasks[i : i+sz]` for `i = 0, sz, 2*sz, … < n` — that is, the half-open
index ranges `(k*sz, min(k*sz + sz, n))` for `k < ceil(n / sz)`. -/

/-- `chunk_tasks(range(n), m)` as the list of (start, stop) pairs of the
yielded slices. -/
def chunk_tasks (n m : ℕ) : List (ℕ × ℕ) :=
  let sz := n / m + 1
  (List.range ((n + sz - 1) / sz)).map (fun k => (k * sz, min (k * sz + sz) n))

lemma chunk_tasks_length (n m : ℕ) :
    (chunk_tasks n m).length = (n + (n / m + 1) - 1) / (n / m + 1) := by
  simp [chunk_tasks]

lemma chunk_tasks_getD (n m k : ℕ) (hk : k < (chunk_tasks n m).length) :
    (chunk_tasks n m).getD k (0, 0) =
      (k * (n / m + 1), min (k * (n / m + 1) + (n / m + 1)) n) := by
  simp only [chunk_tasks] at hk ⊢
  rw [List.getD_eq_getElem _ _ hk]
  simp

/-- Arithmetic core: if `k < ceil(n / sz)` (with positive `sz`) then
`k * sz < n`. -/
lemma ceil_index_mul_lt (n sz k : ℕ) (hsz : 0 < sz)
    (hk : k < (n + sz - 1) / sz) : k * sz < n := by
  have h1 : (k + 1) * sz ≤ ((n + sz - 1) / sz) * sz :=
    Nat.mul_le_mul_right _ hk
  have h2 : ((n + sz - 1) / sz) * sz ≤ n + sz - 1 := Nat.div_mul_le_self _ _
  have h3 : (k + 1) * sz = k * sz + sz := by ring
  rw [h3] at h1
  generalize hP : k * sz = P at h1 ⊢
  generalize hQ : ((n + sz - 1) / sz) * sz = Q at h1 h2
  omega

/-- For any index `k` of the chunk list, `k * sz < n`. -/
lemma chunk_tasks_start_lt (n m k : ℕ) (hk : k < (chunk_tasks n m).length) :
    k * (n / m + 1) < n := by
  rw [chunk_tasks_length] at hk
  exact ceil_index_mul_lt n (n / m + 1) k (Nat.succ_pos _) hk

/-- Chunk count bound: at most `m` chunks. -/
lemma chunk_tasks_count_le (n m : ℕ) (hm : 0 < m) :
    (chunk_tasks n m).length ≤ m := by
  rw [chunk_tasks_length]
  have hmod := Nat.div_add_mod n m
  have hlt : n % m < m := Nat.mod_lt n hm
  generalize hq : n / m = q at hmod ⊢
  generalize hr : n % m = r at hmod hlt
  have hle : n ≤ m * (q + 1) := by
    have h : m * (q + 1) = m * q + m := by ring
    rw [h]
    omega
  have hfin : (n + (q + 1) - 1) / (q + 1) < m + 1 := by
    rw [Nat.div_lt_iff_lt_mul (Nat.succ_pos q)]
    have h : (m + 1) * (q + 1) = m * (q + 1) + (q + 1) := by ring
    rw [h]
    omega
  omega

/-- Coverage: each `x < n` lies in the chunk numbered `x / sz`. -/
lemma chunk_tasks_cover (n m x : ℕ) (hx : x < n) :
    x / (n / m + 1) < (chunk_tasks n m).length ∧
    (x / (n / m + 1)) * (n / m + 1) ≤ x ∧
    x < min ((x / (n / m + 1)) * (n / m + 1) + (n / m + 1)) n := by
  rw [chunk_tasks_length]
  generalize hq : n / m = q
  have h1 : (x / (q + 1)) * (q + 1) ≤ x := Nat.div_mul_le_self x _
  have h2 : x < (x / (q + 1)) * (q + 1) + (q + 1) := by
    have ha := Nat.div_add_mod x (q + 1)
    have hb : x % (q + 1) < q + 1 := Nat.mod_lt x (Nat.succ_pos q)
    have h3 : (q + 1) * (x / (q + 1)) = (x / (q + 1)) * (q + 1) := by ring
    rw [h3] at ha
    generalize hE : (x / (q + 1)) * (q + 1) = E at ha ⊢
    omega
  refine ⟨?_, h1, lt_min h2 hx⟩
  have h4 : x / (q + 1) ≤ (n - 1) / (q + 1) := Nat.div_le_div_right (by omega)
  have h6 : ((n - 1) + (q + 1)) / (q + 1) = (n - 1) / (q + 1) + 1 :=
    Nat.add_div_right _ (Nat.succ_pos q)
  have h7 : (n - 1) + (q + 1) = n + (q + 1) - 1 := by omega
  rw [h7] at h6
  omega

/-! ## Claim C8 -/

/-- Claim C8, counterexample: the chunk count is not exactly `4*W`.  With
axis-0 dof count `n = 8` and `W = 2` workers, `chunk_tasks(range(8), 8)`
yields slice size `8 // 8 + 1 = 2` and hence only 4 chunks, not `4*W = 8`. -/
theorem claim_C8_counterexample :
    (chunk_tasks 8 (4 * 2)).length = 4 ∧ (4 : ℕ) ≠ 4 * 2 := by
  constructor
  · rfl
  · decide

/-- Claim C8 (amended): for worker count `W > 1` the parallel driver splits
the axis-0 range `[0, n)` via `chunk_tasks(range(n), 4*W)` into AT MOST `4*W`
contiguous, nonempty, disjoint, order-preserving chunks whose concatenation
is exactly `[0, n)`: consecutive chunks abut, every chunk is a nonempty
sub-range of `[0, n)`, every index below `n` lies in exactly one chunk
(chunks with smaller index lie entirely to the left), and the chunk count is
at most `4*W`. -/
theorem claim_C8_amended (n W : ℕ) (hW : 1 < W) :
    (∀ k, k < (chunk_tasks n (4 * W)).length →
      ((chunk_tasks n (4 * W)).getD k (0, 0)).1 <
        ((chunk_tasks n (4 * W)).getD k (0, 0)).2 ∧
      ((chunk_tasks n (4 * W)).getD k (0, 0)).2 ≤ n) ∧
    (∀ k, k + 1 < (chunk_tasks n (4 * W)).length →
      ((chunk_tasks n (4 * W)).getD k (0, 0)).2 =
        ((chunk_tasks n (4 * W)).getD (k + 1) (0, 0)).1) ∧
    (∀ x, x < n → ∃ k, k < (chunk_tasks n (4 * W)).length ∧
      ((chunk_tasks n (4 * W)).getD k (0, 0)).1 ≤ x ∧
      x < ((chunk_tasks n (4 * W)).getD k (0, 0)).2) ∧
    (∀ k1 k2, k2 < (chunk_tasks n (4 * W)).length → k1 < k2 →
      ((chunk_tasks n (4 * W)).getD k1 (0, 0)).2 ≤
        ((chunk_tasks n (4 * W)).getD k2 (0, 0)).1) ∧
    (chunk_tasks n (4 * W)).length ≤ 4 * W := by
  refine ⟨?_, ?_, ?_, ?_, chunk_tasks_count_le n (4 * W) (by omega)⟩
  · intro k hk
    rw [chunk_tasks_getD n (4 * W) k hk]
    have hA := chunk_tasks_start_lt n (4 * W) k hk
    exact ⟨lt_min (Nat.lt_add_of_pos_right (Nat.succ_pos _)) hA, min_le_right _ _⟩
  · intro k hk
    have hk' : k < (chunk_tasks n (4 * W)).length := by omega
    rw [chunk_tasks_getD n (4 * W) k hk', chunk_tasks_getD n (4 * W) (k + 1) hk]
    have hA1 := chunk_tasks_start_lt n (4 * W) (k + 1) hk
    have hexp : (k + 1) * (n / (4 * W) + 1) =
        k * (n / (4 * W) + 1) + (n / (4 * W) + 1) := by ring
    rw [hexp] at hA1
    rw [min_eq_left (le_of_lt hA1), hexp]
  · intro x hx
    obtain ⟨h1, h2, h3⟩ := chunk_tasks_cover n (4 * W) x hx
    refine ⟨x / (n / (4 * W) + 1), h1, ?_⟩
    rw [chunk_tasks_getD n (4 * W) (x / (n / (4 * W) + 1)) h1]
    exact ⟨h2, h3⟩
  · intro k1 k2 hk2 hlt
    have hk1 : k1 < (chunk_tasks n (4 * W)).length := by omega
    rw [chunk_tasks_getD n (4 * W) k1 hk1, chunk_tasks_getD n (4 * W) k2 hk2]
    have h1 : (k1 + 1) * (n / (4 * W) + 1) ≤ k2 * (n / (4 * W) + 1) :=
      Nat.mul_le_mul_right _ (by omega)
    have h2 : (k1 + 1) * (n / (4 * W) + 1) =
        k1 * (n / (4 * W) + 1) + (n / (4 * W) + 1) := by ring
    rw [h2] at h1
    exact le_trans (min_le_left _ _) h1

/-- Witness for C8 (amended) at `n = 10`, `W = 2`. -/
theorem claim_C8_amended_witness :
    1 < 2 ∧
    ((∀ k, k < (chunk_tasks 10 (4 * 2)).length →
      ((chunk_tasks 10 (4 * 2)).getD k (0, 0)).1 <
        ((chunk_tasks 10 (4 * 2)).getD k (0, 0)).2 ∧
      ((chunk_tasks 10 (4 * 2)).getD k (0, 0)).2 ≤ 10) ∧
    (∀ k, k + 1 < (chunk_tasks 10 (4 * 2)).length →
      ((chunk_tasks 10 (4 * 2)).getD k (0, 0)).2 =
        ((chunk_tasks 10 (4 * 2)).getD (k + 1) (0, 0)).1) ∧
    (∀ x, x < 10 → ∃ k, k < (chunk_tasks 10 (4 * 2)).length ∧
      ((chunk_tasks 10 (4 * 2)).getD k (0, 0)).1 ≤ x ∧
      x < ((chunk_tasks 10 (4 * 2)).getD k (0, 0)).2) ∧
    (∀ k1 k2, k2 < (chunk_tasks 10 (4 * 2)).length → k1 < k2 →
      ((chunk_tasks 10 (4 * 2)).getD k1 (0, 0)).2 ≤
        ((chunk_tasks 10 (4 * 2)).getD k2 (0, 0)).1) ∧
    (chunk_tasks 10 (4 * 2)).length ≤ 4 * 2) :=
  ⟨by decide, claim_C8_amended 10 2 (by decide)⟩

/-! ## Assembler kernels (source lines 459-571)

Doubles become exact rationals.  The precomputed tensors are modelled as
total functions on `ℤ` node indices (the kernels receive raw pointers into
them, so an out-of-range node index is just another memory cell, never an
error).  `combine_*` receives the slice sizes `n0 (, n1, n2)` and offset
views of the tensors, exactly as the source passes `J[g_sta:g_end, …]` and
`&C[…]` pointers. -/

/-- `combine_mass_2d` (source lines 462-477): `sum of J*u*v` over the grid. -/
def combine_mass_2d (n0 n1 : ℕ) (J : ℕ → ℕ → ℚ)
    (Vu0 Vu1 Vv0 Vv1 : ℕ → ℚ) : ℚ :=
  ∑ i0 ∈ Finset.range n0, ∑ i1 ∈ Finset.range n1,
    Vu0 i0 * Vu1 i1 * (Vv0 i0 * Vv1 i1) * J i0 i1

/-- `combine_stiff_2d` (source lines 480-510): `sum of (B grad(u), grad(v))`.
`VD*` carry the value (`[2*i]`, here derivative index `0`) and the
parametric derivative (`[2*i+1]`, here index `1`) of each basis sample. -/
def combine_stiff_2d (n0 n1 : ℕ) (B : ℕ → ℕ → Fin 2 → Fin 2 → ℚ)
    (VDu0 VDu1 VDv0 VDv1 : ℕ → Fin 2 → ℚ) : ℚ :=
  ∑ i0 ∈ Finset.range n0, ∑ i1 ∈ Finset.range n1,
    ((B i0 i1 0 0 * (VDu0 i0 0 * VDu1 i1 1) + B i0 i1 0 1 * (VDu0 i0 1 * VDu1 i1 0)) *
        (VDv0 i0 0 * VDv1 i1 1) +
      (B i0 i1 1 0 * (VDu0 i0 0 * VDu1 i1 1) + B i0 i1 1 1 * (VDu0 i0 1 * VDu1 i1 0)) *
        (VDv0 i0 1 * VDv1 i1 0))

/-- `combine_mass_3d` (source lines 516-534). -/
def combine_mass_3d (n0 n1 n2 : ℕ) (J : ℕ → ℕ → ℕ → ℚ)
    (Vu0 Vu1 Vu2 Vv0 Vv1 Vv2 : ℕ → ℚ) : ℚ :=
  ∑ i0 ∈ Finset.range n0, ∑ i1 ∈ Finset.range n1, ∑ i2 ∈ Finset.range n2,
    Vu0 i0 * Vu1 i1 * Vu2 i2 * (Vv0 i0 * Vv1 i1 * Vv2 i2) * J i0 i1 i2

/-- `combine_stiff_3d` (source lines 539-571). -/
def combine_stiff_3d (n0 n1 n2 : ℕ) (B : ℕ → ℕ → ℕ → Fin 3 → Fin 3 → ℚ)
    (VDu0 VDu1 VDu2 VDv0 VDv1 VDv2 : ℕ → Fin 2 → ℚ) : ℚ :=
  ∑ i0 ∈ Finset.range n0, ∑ i1 ∈ Finset.range n1, ∑ i2 ∈ Finset.range n2,
    ((B i0 i1 i2 0 0 * (VDu0 i0 0 * VDu1 i1 0 * VDu2 i2 1) +
        B i0 i1 i2 0 1 * (VDu0 i0 0 * VDu1 i1 1 * VDu2 i2 0) +
        B i0 i1 i2 0 2 * (VDu0 i0 1 * VDu1 i1 0 * VDu2 i2 0)) *
      (VDv0 i0 0 * VDv1 i1 0 * VDv2 i2 1) +
    (B i0 i1 i2 1 0 * (VDu0 i0 0 * VDu1 i1 0 * VDu2 i2 1) +
        B i0 i1 i2 1 1 * (VDu0 i0 0 * VDu1 i1 1 * VDu2 i2 0) +
        B i0 i1 i2 1 2 * (VDu0 i0 1 * VDu1 i1 0 * VDu2 i2 0)) *
      (VDv0 i0 0 * VDv1 i1 1 * VDv2 i2 0) +
    (B i0 i1 i2 2 0 * (VDu0 i0 0 * VDu1 i1 0 * VDu2 i2 1) +
        B i0 i1 i2 2 1 * (VDu0 i0 0 * VDu1 i1 1 * VDu2 i2 0) +
        B i0 i1 i2 2 2 * (VDu0 i0 1 * VDu1 i1 0 * VDu2 i2 0)) *
      (VDv0 i0 1 * VDv1 i1 0 * VDv2 i2 0))

/-- `matmatT_2x2` (source lines 410-421): `B * B^T` per grid point. -/
def matmatT_2x2 (B : ℤ → ℤ → Fin 2 → Fin 2 → ℚ) :
    ℤ → ℤ → Fin 2 → Fin 2 → ℚ :=
  fun p q j l => ∑ k : Fin 2, B p q j k * B p q l k

/-- `matmatT_3x3` (source lines 423-436). -/
def matmatT_3x3 (B : ℤ → ℤ → ℤ → Fin 3 → Fin 3 → ℚ) :
    ℤ → ℤ → ℤ → Fin 3 → Fin 3 → ℚ :=
  fun p q r j l => ∑ k : Fin 3, B p q r j k * B p q r l k

/-- Delinearization `BaseAssembler2D.from_seq` (source lines 604-607). -/
def from_seq2 (n1 x : ℕ) : ℕ × ℕ := (x / n1, x % n1)

/-- Delinearization `BaseAssembler3D.from_seq` (source lines 788-794). -/
def from_seq3 (n1 n2 x : ℕ) : ℕ × ℕ × ℕ := (x / n2 / n1, x / n2 % n1, x % n2)

/-! ### `MassAssembler2D` (source lines 655-704) -/

structure MassAssembler2D where
  nqp : ℤ
  ndofs1 : ℕ
  meshsupp0 : SupportTable
  meshsupp1 : SupportTable
  C0 : ℤ → ℕ → ℚ          -- collocation values, indexed (node, dof)
  C1 : ℤ → ℕ → ℚ
  geo_weights : ℤ → ℤ → ℚ

/-- `MassAssembler2D.assemble_impl` (source lines 680-704): per-axis support
intersection with early `0.0` return, then the mass kernel over the
`nqp*intv` node range. -/
def MassAssembler2D.assemble_impl (asm : MassAssembler2D) (i j : ℕ × ℕ) : ℚ :=
  let intv0 := intersect_intervals (suppAt asm.meshsupp0 i.1) (suppAt asm.meshsupp0 j.1)
  if intv0.a ≥ intv0.b then 0
  else
    let intv1 := intersect_intervals (suppAt asm.meshsupp1 i.2) (suppAt asm.meshsupp1 j.2)
    if intv1.a ≥ intv1.b then 0
    else
      let g0 := asm.nqp * intv0.a
      let g1 := asm.nqp * intv1.a
      combine_mass_2d (asm.nqp * intv0.b - g0).toNat (asm.nqp * intv1.b - g1).toNat
        (fun p q => asm.geo_weights (g0 + p) (g1 + q))
        (fun p => asm.C0 (g0 + p) i.1) (fun p => asm.C1 (g1 + p) i.2)
        (fun p => asm.C0 (g0 + p) j.1) (fun p => asm.C1 (g1 + p) j.2)

/-- `BaseAssembler2D.assemble` (source lines 612-617). -/
def MassAssembler2D.assemble (asm : MassAssembler2D) (x y : ℕ) : ℚ :=
  asm.assemble_impl (from_seq2 asm.ndofs1 x) (from_seq2 asm.ndofs1 y)

/-! ### `StiffnessAssembler2D` (source lines 707-755) -/

structure StiffnessAssembler2D where
  nqp : ℤ
  ndofs1 : ℕ
  meshsupp0 : SupportTable
  meshsupp1 : SupportTable
  C0 : ℕ → ℤ → Fin 2 → ℚ  -- basis samples, indexed (dof, node, derivative)
  C1 : ℕ → ℤ → Fin 2 → ℚ
  B : ℤ → ℤ → Fin 2 → Fin 2 → ℚ

/-- `StiffnessAssembler2D.assemble_impl` (source lines 733-755). -/
def StiffnessAssembler2D.assemble_impl (asm : StiffnessAssembler2D) (i j : ℕ × ℕ) : ℚ :=
  let intv0 := intersect_intervals (suppAt asm.meshsupp0 i.1) (suppAt asm.meshsupp0 j.1)
  if intv0.a ≥ intv0.b then 0
  else
    let intv1 := intersect_intervals (suppAt asm.meshsupp1 i.2) (suppAt asm.meshsupp1 j.2)
    if intv1.a ≥ intv1.b then 0
    else
      let g0 := asm.nqp * intv0.a
      let g1 := asm.nqp * intv1.a
      combine_stiff_2d (asm.nqp * intv0.b - g0).toNat (asm.nqp * intv1.b - g1).toNat
        (fun p q => asm.B (g0 + p) (g1 + q))
        (fun p => asm.C0 i.1 (g0 + p)) (fun p => asm.C1 i.2 (g1 + p))
        (fun p => asm.C0 j.1 (g0 + p)) (fun p => asm.C1 j.2 (g1 + p))

def StiffnessAssembler2D.assemble (asm : StiffnessAssembler2D) (x y : ℕ) : ℚ :=
  asm.assemble_impl (from_seq2 asm.ndofs1 x) (from_seq2 asm.ndofs1 y)

/-! ### `MassAssembler3D` (source lines 842-890) and
`StiffnessAssembler3D` (source lines 893-941) -/

structure MassAssembler3D where
  nqp : ℤ
  ndofs1 : ℕ
  ndofs2 : ℕ
  meshsupp0 : SupportTable
  meshsupp1 : SupportTable
  meshsupp2 : SupportTable
  C0 : ℤ → ℕ → ℚ
  C1 : ℤ → ℕ → ℚ
  C2 : ℤ → ℕ → ℚ
  geo_weights : ℤ → ℤ → ℤ → ℚ

/-- `MassAssembler3D.assemble_impl` (source lines 867-890). -/
def MassAssembler3D.assemble_impl (asm : MassAssembler3D) (i j : ℕ × ℕ × ℕ) : ℚ :=
  let intv0 := intersect_intervals (suppAt asm.meshsupp0 i.1) (suppAt asm.meshsupp0 j.1)
  if intv0.a ≥ intv0.b then 0
  else
    let intv1 := intersect_intervals (suppAt asm.meshsupp1 i.2.1) (suppAt asm.meshsupp1 j.2.1)
    if intv1.a ≥ intv1.b then 0
    else
      let intv2 := intersect_intervals (suppAt asm.meshsupp2 i.2.2) (suppAt asm.meshsupp2 j.2.2)
      if intv2.a ≥ intv2.b then 0
      else
        let g0 := asm.nqp * intv0.a
        let g1 := asm.nqp * intv1.a
        let g2 := asm.nqp * intv2.a
        combine_mass_3d (asm.nqp * intv0.b - g0).toNat (asm.nqp * intv1.b - g1).toNat
          (asm.nqp * intv2.b - g2).toNat
          (fun p q r => asm.geo_weights (g0 + p) (g1 + q) (g2 + r))
          (fun p => asm.C0 (g0 + p) i.1) (fun p => asm.C1 (g1 + p) i.2.1)
          (fun p => asm.C2 (g2 + p) i.2.2)
          (fun p => asm.C0 (g0 + p) j.1) (fun p => asm.C1 (g1 + p) j.2.1)
          (fun p => asm.C2 (g2 + p) j.2.2)

def MassAssembler3D.assemble (asm : MassAssembler3D) (x y : ℕ) : ℚ :=
  asm.assemble_impl (from_seq3 asm.ndofs1 asm.ndofs2 x) (from_seq3 asm.ndofs1 asm.ndofs2 y)

structure StiffnessAssembler3D where
  nqp : ℤ
  ndofs1 : ℕ
  ndofs2 : ℕ
  meshsupp0 : SupportTable
  meshsupp1 : SupportTable
  meshsupp2 : SupportTable
  C0 : ℕ → ℤ → Fin 2 → ℚ
  C1 : ℕ → ℤ → Fin 2 → ℚ
  C2 : ℕ → ℤ → Fin 2 → ℚ
  B : ℤ → ℤ → ℤ → Fin 3 → Fin 3 → ℚ

/-- `StiffnessAssembler3D.assemble_impl` (source lines 919-941). -/
def StiffnessAssembler3D.assemble_impl (asm : StiffnessAssembler3D) (i j : ℕ × ℕ × ℕ) : ℚ :=
  let intv0 := intersect_intervals (suppAt asm.meshsupp0 i.1) (suppAt asm.meshsupp0 j.1)
  if intv0.a ≥ intv0.b then 0
  else
    let intv1 := intersect_intervals (suppAt asm.meshsupp1 i.2.1) (suppAt asm.meshsupp1 j.2.1)
    if intv1.a ≥ intv1.b then 0
    else
      let intv2 := intersect_intervals (suppAt asm.meshsupp2 i.2.2) (suppAt asm.meshsupp2 j.2.2)
      if intv2.a ≥ intv2.b then 0
      else
        let g0 := asm.nqp * intv0.a
        let g1 := asm.nqp * intv1.a
        let g2 := asm.nqp * intv2.a
        combine_stiff_3d (asm.nqp * intv0.b - g0).toNat (asm.nqp * intv1.b - g1).toNat
          (asm.nqp * intv2.b - g2).toNat
          (fun p q r => asm.B (g0 + p) (g1 + q) (g2 + r))
          (fun p => asm.C0 i.1 (g0 + p)) (fun p => asm.C1 i.2.1 (g1 + p))
          (fun p => asm.C2 i.2.2 (g2 + p))
          (fun p => asm.C0 j.1 (g0 + p)) (fun p => asm.C1 j.2.1 (g1 + p))
          (fun p => asm.C2 j.2.2 (g2 + p))

def StiffnessAssembler3D.assemble (asm : StiffnessAssembler3D) (x y : ℕ) : ℚ :=
  asm.assemble_impl (from_seq3 asm.ndofs1 asm.ndofs2 x) (from_seq3 asm.ndofs1 asm.ndofs2 y)

/-! ## Claim C4 -/

/-- Claim C4: for every dof multi-index pair whose per-axis supports have an
empty intersection on at least one axis (`max of left endpoints ≥ min of
right endpoints`), `assemble_impl` returns exactly `0`, for all four concrete
assemblers — and it does so for EVERY geometry weight tensor and basis-value
tensor, i.e. without reading the quadrature data. -/
theorem claim_C4 (ma2 : MassAssembler2D) (sa2 : StiffnessAssembler2D)
    (ma3 : MassAssembler3D) (sa3 : StiffnessAssembler3D)
    (i2 j2 : ℕ × ℕ) (i3 j3 : ℕ × ℕ × ℕ)
    (hm2 : (intersect_intervals (suppAt ma2.meshsupp0 i2.1) (suppAt ma2.meshsupp0 j2.1)).a ≥
        (intersect_intervals (suppAt ma2.meshsupp0 i2.1) (suppAt ma2.meshsupp0 j2.1)).b ∨
      (intersect_intervals (suppAt ma2.meshsupp1 i2.2) (suppAt ma2.meshsupp1 j2.2)).a ≥
        (intersect_intervals (suppAt ma2.meshsupp1 i2.2) (suppAt ma2.meshsupp1 j2.2)).b)
    (hs2 : (intersect_intervals (suppAt sa2.meshsupp0 i2.1) (suppAt sa2.meshsupp0 j2.1)).a ≥
        (intersect_intervals (suppAt sa2.meshsupp0 i2.1) (suppAt sa2.meshsupp0 j2.1)).b ∨
      (intersect_intervals (suppAt sa2.meshsupp1 i2.2) (suppAt sa2.meshsupp1 j2.2)).a ≥
        (intersect_intervals (suppAt sa2.meshsupp1 i2.2) (suppAt sa2.meshsupp1 j2.2)).b)
    (hm3 : (intersect_intervals (suppAt ma3.meshsupp0 i3.1) (suppAt ma3.meshsupp0 j3.1)).a ≥
        (intersect_intervals (suppAt ma3.meshsupp0 i3.1) (suppAt ma3.meshsupp0 j3.1)).b ∨
      (intersect_intervals (suppAt ma3.meshsupp1 i3.2.1) (suppAt ma3.meshsupp1 j3.2.1)).a ≥
        (intersect_intervals (suppAt ma3.meshsupp1 i3.2.1) (suppAt ma3.meshsupp1 j3.2.1)).b ∨
      (intersect_intervals (suppAt ma3.meshsupp2 i3.2.2) (suppAt ma3.meshsupp2 j3.2.2)).a ≥
        (intersect_intervals (suppAt ma3.meshsupp2 i3.2.2) (suppAt ma3.meshsupp2 j3.2.2)).b)
    (hs3 : (intersect_intervals (suppAt sa3.meshsupp0 i3.1) (suppAt sa3.meshsupp0 j3.1)).a ≥
        (intersect_intervals (suppAt sa3.meshsupp0 i3.1) (suppAt sa3.meshsupp0 j3.1)).b ∨
      (intersect_intervals (suppAt sa3.meshsupp1 i3.2.1) (suppAt sa3.meshsupp1 j3.2.1)).a ≥
        (intersect_intervals (suppAt sa3.meshsupp1 i3.2.1) (suppAt sa3.meshsupp1 j3.2.1)).b ∨
      (intersect_intervals (suppAt sa3.meshsupp2 i3.2.2) (suppAt sa3.meshsupp2 j3.2.2)).a ≥
        (intersect_intervals (suppAt sa3.meshsupp2 i3.2.2) (suppAt sa3.meshsupp2 j3.2.2)).b) :
    ma2.assemble_impl i2 j2 = 0 ∧ sa2.assemble_impl i2 j2 = 0 ∧
    ma3.assemble_impl i3 j3 = 0 ∧ sa3.assemble_impl i3 j3 = 0 := by
  refine ⟨?_, ?_, ?_, ?_⟩
  · unfold MassAssembler2D.assemble_impl
    rcases hm2 with h | h
    · rw [if_pos h]
    · by_cases h0 : (intersect_intervals (suppAt ma2.meshsupp0 i2.1)
          (suppAt ma2.meshsupp0 j2.1)).a ≥
          (intersect_intervals (suppAt ma2.meshsupp0 i2.1) (suppAt ma2.meshsupp0 j2.1)).b
      · rw [if_pos h0]
      · rw [if_neg h0, if_pos h]
  · unfold StiffnessAssembler2D.assemble_impl
    rcases hs2 with h | h
    · rw [if_pos h]
    · by_cases h0 : (intersect_intervals (suppAt sa2.meshsupp0 i2.1)
          (suppAt sa2.meshsupp0 j2.1)).a ≥
          (intersect_intervals (suppAt sa2.meshsupp0 i2.1) (suppAt sa2.meshsupp0 j2.1)).b
      · rw [if_pos h0]
      · rw [if_neg h0, if_pos h]
  · unfold MassAssembler3D.assemble_impl
    rcases hm3 with h | h | h
    · rw [if_pos h]
    · by_cases h0 : (intersect_intervals (suppAt ma3.meshsupp0 i3.1)
          (suppAt ma3.meshsupp0 j3.1)).a ≥
          (intersect_intervals (suppAt ma3.meshsupp0 i3.1) (suppAt ma3.meshsupp0 j3.1)).b
      · rw [if_pos h0]
      · rw [if_neg h0, if_pos h]
    · by_cases h0 : (intersect_intervals (suppAt ma3.meshsupp0 i3.1)
          (suppAt ma3.meshsupp0 j3.1)).a ≥
          (intersect_intervals (suppAt ma3.meshsupp0 i3.1) (suppAt ma3.meshsupp0 j3.1)).b
      · rw [if_pos h0]
      · rw [if_neg h0]
        by_cases h1 : (intersect_intervals (suppAt ma3.meshsupp1 i3.2.1)
            (suppAt ma3.meshsupp1 j3.2.1)).a ≥
            (intersect_intervals (suppAt ma3.meshsupp1 i3.2.1) (suppAt ma3.meshsupp1 j3.2.1)).b
        · rw [if_pos h1]
        · rw [if_neg h1, if_pos h]
  · unfold StiffnessAssembler3D.assemble_impl
    rcases hs3 with h | h | h
    · rw [if_pos h]
    · by_cases h0 : (intersect_intervals (suppAt sa3.meshsupp0 i3.1)
          (suppAt sa3.meshsupp0 j3.1)).a ≥
          (intersect_intervals (suppAt sa3.meshsupp0 i3.1) (suppAt sa3.meshsupp0 j3.1)).b
      · rw [if_pos h0]
      · rw [if_neg h0, if_pos h]
    · by_cases h0 : (intersect_intervals (suppAt sa3.meshsupp0 i3.1)
          (suppAt sa3.meshsupp0 j3.1)).a ≥
          (intersect_intervals (suppAt sa3.meshsupp0 i3.1) (suppAt sa3.meshsupp0 j3.1)).b
      · rw [if_pos h0]
      · rw [if_neg h0]
        by_cases h1 : (intersect_intervals (suppAt sa3.meshsupp1 i3.2.1)
            (suppAt sa3.meshsupp1 j3.2.1)).a ≥
            (intersect_intervals (suppAt sa3.meshsupp1 i3.2.1) (suppAt sa3.meshsupp1 j3.2.1)).b
        · rw [if_pos h1]
        · rw [if_neg h1, if_pos h]

/-- A small example support table with two disjoint functions. -/
def exTable2 : SupportTable := [⟨0, 1⟩, ⟨2, 3⟩]

def ma2ex : MassAssembler2D :=
  ⟨2, 2, exTable2, exTable2, fun _ _ => 1, fun _ _ => 1, fun _ _ => 1⟩

def sa2ex : StiffnessAssembler2D :=
  ⟨2, 2, exTable2, exTable2, fun _ _ _ => 1, fun _ _ _ => 1, fun _ _ _ _ => 1⟩

def ma3ex : MassAssembler3D :=
  ⟨2, 2, 2, exTable2, exTable2, exTable2, fun _ _ => 1, fun _ _ => 1, fun _ _ => 1,
    fun _ _ _ => 1⟩

def sa3ex : StiffnessAssembler3D :=
  ⟨2, 2, 2, exTable2, exTable2, exTable2, fun _ _ _ => 1, fun _ _ _ => 1, fun _ _ _ => 1,
    fun _ _ _ _ _ => 1⟩

/-- Witness for C4: dofs 0 and 1 of `exTable2` have disjoint supports on
axis 0, so all four assemblers return exactly `0`. -/
theorem claim_C4_witness :
    ((intersect_intervals (suppAt ma2ex.meshsupp0 0) (suppAt ma2ex.meshsupp0 1)).a ≥
        (intersect_intervals (suppAt ma2ex.meshsupp0 0) (suppAt ma2ex.meshsupp0 1)).b ∨
      (intersect_intervals (suppAt ma2ex.meshsupp1 0) (suppAt ma2ex.meshsupp1 1)).a ≥
        (intersect_intervals (suppAt ma2ex.meshsupp1 0) (suppAt ma2ex.meshsupp1 1)).b) ∧
    ma2ex.assemble_impl (0, 0) (1, 1) = 0 ∧ sa2ex.assemble_impl (0, 0) (1, 1) = 0 ∧
    ma3ex.assemble_impl (0, 0, 0) (1, 1, 1) = 0 ∧
    sa3ex.assemble_impl (0, 0, 0) (1, 1, 1) = 0 :=
  ⟨by decide,
    claim_C4 ma2ex sa2ex ma3ex sa3ex (0, 0) (1, 1) (0, 0, 0) (1, 1, 1)
      (by decide) (by decide) (by decide) (by decide)⟩

/-! ## Claim C5 — symmetry of `assemble` -/

lemma intersect_comm (p q : IntInterval) :
    intersect_intervals p q = intersect_intervals q p := by
  simp [intersect_intervals, make_intv, max_comm, min_comm]

/-- `StiffnessAssembler2D.__init__` (source lines 712-725), restricted to the
construction of `B`: `B = matmatT_2x2(geo_jacinv) * weights[:,:,None,None]`.
The collaborator outputs (collocation samples, quadrature weights, inverse
Jacobian grid) enter as parameters. -/
def StiffnessAssembler2D.build (nqp : ℤ) (ndofs1 : ℕ) (ms0 ms1 : SupportTable)
    (C0 C1 : ℕ → ℤ → Fin 2 → ℚ) (Jinv : ℤ → ℤ → Fin 2 → Fin 2 → ℚ)
    (w : ℤ → ℤ → ℚ) : StiffnessAssembler2D :=
  ⟨nqp, ndofs1, ms0, ms1, C0, C1, fun p q j l => matmatT_2x2 Jinv p q j l * w p q⟩

/-- `StiffnessAssembler3D.__init__` (source lines 898-911), restricted to the
construction of `B = matmatT_3x3(geo_jacinv) * weights`. -/
def StiffnessAssembler3D.build (nqp : ℤ) (ndofs1 ndofs2 : ℕ)
    (ms0 ms1 ms2 : SupportTable) (C0 C1 C2 : ℕ → ℤ → Fin 2 → ℚ)
    (Jinv : ℤ → ℤ → ℤ → Fin 3 → Fin 3 → ℚ) (w : ℤ → ℤ → ℤ → ℚ) : StiffnessAssembler3D :=
  ⟨nqp, ndofs1, ndofs2, ms0, ms1, ms2, C0, C1, C2,
    fun p q r j l => matmatT_3x3 Jinv p q r j l * w p q r⟩

lemma combine_mass_2d_symm (n0 n1 : ℕ) (J : ℕ → ℕ → ℚ) (u0 u1 v0 v1 : ℕ → ℚ) :
    combine_mass_2d n0 n1 J u0 u1 v0 v1 = combine_mass_2d n0 n1 J v0 v1 u0 u1 := by
  unfold combine_mass_2d
  refine Finset.sum_congr rfl fun p _ => Finset.sum_congr rfl fun q _ => by ring

lemma combine_mass_3d_symm (n0 n1 n2 : ℕ) (J : ℕ → ℕ → ℕ → ℚ)
    (u0 u1 u2 v0 v1 v2 : ℕ → ℚ) :
    combine_mass_3d n0 n1 n2 J u0 u1 u2 v0 v1 v2 =
      combine_mass_3d n0 n1 n2 J v0 v1 v2 u0 u1 u2 := by
  unfold combine_mass_3d
  refine Finset.sum_congr rfl fun p _ => Finset.sum_congr rfl fun q _ =>
    Finset.sum_congr rfl fun r _ => by ring

lemma combine_stiff_2d_symm (n0 n1 : ℕ) (B : ℕ → ℕ → Fin 2 → Fin 2 → ℚ)
    (hB : ∀ p q, B p q 0 1 = B p q 1 0) (u0 u1 v0 v1 : ℕ → Fin 2 → ℚ) :
    combine_stiff_2d n0 n1 B u0 u1 v0 v1 = combine_stiff_2d n0 n1 B v0 v1 u0 u1 := by
  unfold combine_stiff_2d
  refine Finset.sum_congr rfl fun p _ => Finset.sum_congr rfl fun q _ => ?_
  rw [hB p q]
  ring

lemma combine_stiff_3d_symm (n0 n1 n2 : ℕ) (B : ℕ → ℕ → ℕ → Fin 3 → Fin 3 → ℚ)
    (hB01 : ∀ p q r, B p q r 0 1 = B p q r 1 0)
    (hB02 : ∀ p q r, B p q r 0 2 = B p q r 2 0)
    (hB12 : ∀ p q r, B p q r 1 2 = B p q r 2 1)
    (u0 u1 u2 v0 v1 v2 : ℕ → Fin 2 → ℚ) :
    combine_stiff_3d n0 n1 n2 B u0 u1 u2 v0 v1 v2 =
      combine_stiff_3d n0 n1 n2 B v0 v1 v2 u0 u1 u2 := by
  unfold combine_stiff_3d
  refine Finset.sum_congr rfl fun p _ => Finset.sum_congr rfl fun q _ =>
    Finset.sum_congr rfl fun r _ => ?_
  rw [hB01 p q r, hB02 p q r, hB12 p q r]
  ring

lemma matmatT_2x2_symm (Jinv : ℤ → ℤ → Fin 2 → Fin 2 → ℚ) (p q : ℤ) :
    matmatT_2x2 Jinv p q 0 1 = matmatT_2x2 Jinv p q 1 0 := by
  unfold matmatT_2x2
  exact Finset.sum_congr rfl fun k _ => mul_comm _ _

lemma matmatT_3x3_symm (Jinv : ℤ → ℤ → ℤ → Fin 3 → Fin 3 → ℚ) (p q r : ℤ)
    (a b : Fin 3) : matmatT_3x3 Jinv p q r a b = matmatT_3x3 Jinv p q r b a := by
  unfold matmatT_3x3
  exact Finset.sum_congr rfl fun k _ => mul_comm _ _

lemma mass2d_impl_symm (asm : MassAssembler2D) (i j : ℕ × ℕ) :
    asm.assemble_impl i j = asm.assemble_impl j i := by
  unfold MassAssembler2D.assemble_impl
  rw [intersect_comm (suppAt asm.meshsupp0 j.1) (suppAt asm.meshsupp0 i.1),
    intersect_comm (suppAt asm.meshsupp1 j.2) (suppAt asm.meshsupp1 i.2)]
  dsimp only
  split_ifs with h0 h1
  · rfl
  · rfl
  · exact combine_mass_2d_symm _ _ _ _ _ _ _

lemma mass3d_impl_symm (asm : MassAssembler3D) (i j : ℕ × ℕ × ℕ) :
    asm.assemble_impl i j = asm.assemble_impl j i := by
  unfold MassAssembler3D.assemble_impl
  rw [intersect_comm (suppAt asm.meshsupp0 j.1) (suppAt asm.meshsupp0 i.1),
    intersect_comm (suppAt asm.meshsupp1 j.2.1) (suppAt asm.meshsupp1 i.2.1),
    intersect_comm (suppAt asm.meshsupp2 j.2.2) (suppAt asm.meshsupp2 i.2.2)]
  dsimp only
  split_ifs with h0 h1 h2
  · rfl
  · rfl
  · rfl
  · exact combine_mass_3d_symm _ _ _ _ _ _ _ _ _ _

lemma stiff2d_impl_symm (nqp : ℤ) (ndofs1 : ℕ) (ms0 ms1 : SupportTable)
    (C0 C1 : ℕ → ℤ → Fin 2 → ℚ) (Jinv : ℤ → ℤ → Fin 2 → Fin 2 → ℚ)
    (w : ℤ → ℤ → ℚ) (i j : ℕ × ℕ) :
    (StiffnessAssembler2D.build nqp ndofs1 ms0 ms1 C0 C1 Jinv w).assemble_impl i j =
      (StiffnessAssembler2D.build nqp ndofs1 ms0 ms1 C0 C1 Jinv w).assemble_impl j i := by
  unfold StiffnessAssembler2D.assemble_impl StiffnessAssembler2D.build
  rw [intersect_comm (suppAt ms0 j.1) (suppAt ms0 i.1),
    intersect_comm (suppAt ms1 j.2) (suppAt ms1 i.2)]
  dsimp only
  split_ifs with h0 h1
  · rfl
  · rfl
  · exact combine_stiff_2d_symm _ _ _
      (fun p q => by rw [matmatT_2x2_symm]) _ _ _ _

lemma stiff3d_impl_symm (nqp : ℤ) (ndofs1 ndofs2 : ℕ) (ms0 ms1 ms2 : SupportTable)
    (C0 C1 C2 : ℕ → ℤ → Fin 2 → ℚ) (Jinv : ℤ → ℤ → ℤ → Fin 3 → Fin 3 → ℚ)
    (w : ℤ → ℤ → ℤ → ℚ) (i j : ℕ × ℕ × ℕ) :
    (StiffnessAssembler3D.build nqp ndofs1 ndofs2 ms0 ms1 ms2 C0 C1 C2 Jinv
        w).assemble_impl i j =
      (StiffnessAssembler3D.build nqp ndofs1 ndofs2 ms0 ms1 ms2 C0 C1 C2 Jinv
        w).assemble_impl j i := by
  unfold StiffnessAssembler3D.assemble_impl StiffnessAssembler3D.build
  rw [intersect_comm (suppAt ms0 j.1) (suppAt ms0 i.1),
    intersect_comm (suppAt ms1 j.2.1) (suppAt ms1 i.2.1),
    intersect_comm (suppAt ms2 j.2.2) (suppAt ms2 i.2.2)]
  dsimp only
  split_ifs with h0 h1 h2
  · rfl
  · rfl
  · rfl
  · exact combine_stiff_3d_symm _ _ _ _
      (fun p q r => by rw [matmatT_3x3_symm])
      (fun p q r => by rw [matmatT_3x3_symm])
      (fun p q r => by rw [matmatT_3x3_symm]) _ _ _ _ _ _

/-- Claim C5: for every concrete mass assembler, and every stiffness
assembler whose metric tensor `B` is built by the constructor as
`matmatT(geo_jacinv) * weights` (2-D and 3-D), exchanging the two scalar dof
arguments of `assemble` yields an equal result. -/
theorem claim_C5 (ma2 : MassAssembler2D) (ma3 : MassAssembler3D)
    (nqp2 : ℤ) (nd1 : ℕ) (ms0 ms1 : SupportTable) (C0 C1 : ℕ → ℤ → Fin 2 → ℚ)
    (Jinv2 : ℤ → ℤ → Fin 2 → Fin 2 → ℚ) (w2 : ℤ → ℤ → ℚ)
    (nqp3 : ℤ) (nd1b nd2b : ℕ) (ms0b ms1b ms2b : SupportTable)
    (C0b C1b C2b : ℕ → ℤ → Fin 2 → ℚ) (Jinv3 : ℤ → ℤ → ℤ → Fin 3 → Fin 3 → ℚ)
    (w3 : ℤ → ℤ → ℤ → ℚ) (x y : ℕ) :
    ma2.assemble x y = ma2.assemble y x ∧
    ma3.assemble x y = ma3.assemble y x ∧
    (StiffnessAssembler2D.build nqp2 nd1 ms0 ms1 C0 C1 Jinv2 w2).assemble x y =
      (StiffnessAssembler2D.build nqp2 nd1 ms0 ms1 C0 C1 Jinv2 w2).assemble y x ∧
    (StiffnessAssembler3D.build nqp3 nd1b nd2b ms0b ms1b ms2b C0b C1b C2b Jinv3
        w3).assemble x y =
      (StiffnessAssembler3D.build nqp3 nd1b nd2b ms0b ms1b ms2b C0b C1b C2b Jinv3
        w3).assemble y x :=
  ⟨mass2d_impl_symm ma2 _ _, mass3d_impl_symm ma3 _ _,
    stiff2d_impl_symm nqp2 nd1 ms0 ms1 C0 C1 Jinv2 w2 _ _,
    stiff3d_impl_symm nqp3 nd1b nd2b ms0b ms1b ms2b C0b C1b C2b Jinv3 w3 _ _⟩

/-! ## Claim C6 — singular Jacobians at construction time

`MassAssembler2D.__init__` (source lines 660-672) runs two `assert`s (wrong
geometry dimension, wrong knot-vector count) and then computes
`geo_weights = gw0 ⊗ gw1 * |det(geo_jac)|` with no singularity check of any
kind; `det_and_inv_2x2` (source lines 276-294) is compiled with
`cdivision(True)`, so a zero determinant silently produces non-finite
inverse entries instead of raising.  The `Except` embedding models exactly
the raising behavior: `.error` for a failed `assert`, `.ok` otherwise.
Division on `ℚ` is total (`x / 0 = 0`), mirroring that the C division by a
zero determinant never raises. -/

/-- The 2×2 branch of `determinants` (source lines 257-260):
`X[...,0,0]*X[...,1,1] - X[...,0,1]*X[...,1,0]`. -/
def determinants_2x2 (X : ℤ → ℤ → Fin 2 → Fin 2 → ℚ) : ℤ → ℤ → ℚ :=
  fun p q => X p q 0 0 * X p q 1 1 - X p q 0 1 * X p q 1 0

/-- `det_and_inv_2x2` (source lines 279-294): per grid point, the
determinant and the cofactor inverse obtained by unchecked division. -/
def det_and_inv_2x2 (X : ℤ → ℤ → Fin 2 → Fin 2 → ℚ) :
    (ℤ → ℤ → ℚ) × (ℤ → ℤ → Fin 2 → Fin 2 → ℚ) :=
  (fun p q => X p q 0 0 * X p q 1 1 - X p q 0 1 * X p q 1 0,
   fun p q j l =>
     let det := X p q 0 0 * X p q 1 1 - X p q 0 1 * X p q 1 0
     if j = 0 ∧ l = 0 then X p q 1 1 / det
     else if j = 0 ∧ l = 1 then -X p q 0 1 / det
     else if j = 1 ∧ l = 0 then -X p q 1 0 / det
     else X p q 0 0 / det)

/-- `MassAssembler2D.__init__` (source lines 660-672), at the level of its
checked steps: the two `assert`s, then the unchecked weight tensor
`gaussweights0 ⊗ gaussweights1 * |det|`.  The quadrature grid and Jacobian
samples are collaborator outputs and enter as parameters. -/
def massAssembler2D_init (geoDim kvsLen : ℕ) (gw0 gw1 : ℤ → ℚ)
    (geo_jac : ℤ → ℤ → Fin 2 → Fin 2 → ℚ) : Except String (ℤ → ℤ → ℚ) :=
  if geoDim ≠ 2 then .error "Geometry has wrong dimension"
  else if kvsLen ≠ 2 then .error "Assembler requires two knot vectors"
  else .ok (fun p q => gw0 p * gw1 q * |determinants_2x2 geo_jac p q|)

/-- The everywhere-singular Jacobian grid. -/
def zeroJac : ℤ → ℤ → Fin 2 → Fin 2 → ℚ := fun _ _ _ _ => 0

/-- Claim C6, counterexample: constructing a `MassAssembler2D` whose
geometry map reports a singular Jacobian (determinant `0` at every sample)
does NOT fail — construction returns a usable assembler, the zero
determinant being absorbed into the weight tensor; `det_and_inv_2x2`
likewise returns the zero determinant without raising. -/
theorem claim_C6_counterexample :
    massAssembler2D_init 2 2 (fun _ => 1) (fun _ => 1) zeroJac =
      .ok (fun p q => (1 : ℚ) * 1 * |determinants_2x2 zeroJac p q|) ∧
    determinants_2x2 zeroJac 0 0 = 0 ∧
    (det_and_inv_2x2 zeroJac).1 0 0 = 0 := by
  refine ⟨rfl, ?_, ?_⟩
  · simp [determinants_2x2, zeroJac]
  · simp [det_and_inv_2x2, zeroJac]

/-- Claim C6 (amended): a singular (zero-determinant) Jacobian is NOT a
construction-time error.  With correct axis count and geometry dimension,
construction always succeeds, and at any sample where the determinant is
zero the precomputed mass weight is silently zero (the value is absorbed
into the tensor); the only construction-time errors are wrong geometry
dimension and wrong knot-vector count.  `det_and_inv_2x2` performs no
singularity check: it returns the raw determinant unconditionally. -/
theorem claim_C6_amended (geoDim kvsLen : ℕ) (gw0 gw1 : ℤ → ℚ)
    (geo_jac : ℤ → ℤ → Fin 2 → Fin 2 → ℚ) (p q : ℤ)
    (hdim : geoDim = 2) (hkvs : kvsLen = 2)
    (hsing : determinants_2x2 geo_jac p q = 0) :
    massAssembler2D_init geoDim kvsLen gw0 gw1 geo_jac =
      .ok (fun p q => gw0 p * gw1 q * |determinants_2x2 geo_jac p q|) ∧
    gw0 p * gw1 q * |determinants_2x2 geo_jac p q| = 0 ∧
    (det_and_inv_2x2 geo_jac).1 p q = determinants_2x2 geo_jac p q := by
  subst hdim hkvs
  refine ⟨rfl, ?_, rfl⟩
  rw [hsing]
  simp

/-- Witness for C6 (amended) on the everywhere-singular Jacobian. -/
theorem claim_C6_amended_witness :
    ((2 : ℕ) = 2 ∧ (2 : ℕ) = 2 ∧ determinants_2x2 zeroJac 0 0 = 0) ∧
    (massAssembler2D_init 2 2 (fun _ => 1) (fun _ => 1) zeroJac =
      .ok (fun p q => (1 : ℚ) * 1 * |determinants_2x2 zeroJac p q|) ∧
    (1 : ℚ) * 1 * |determinants_2x2 zeroJac 0 0| = 0 ∧
    (det_and_inv_2x2 zeroJac).1 0 0 = determinants_2x2 zeroJac 0 0) :=
  ⟨⟨rfl, rfl, by simp [determinants_2x2, zeroJac]⟩,
    claim_C6_amended 2 2 (fun _ => 1) (fun _ => 1) zeroJac 0 0 rfl rfl
      (by simp [determinants_2x2, zeroJac])⟩

/-! ## The traversal loops (source lines 168-190, 951-1006, 1034-1090)

`next_lexicographic2` / `next_lexicographic3` are the same routine at
`d = 2, 3`; the model is the common `d`-ary routine on index lists (axis 0
varies fastest, the last axis has no reset).  The `while True:` loops of
`generic_assemble_2d/3d` become fueled recursions (`lexLoop`); the fuel
supplied in `generic_assemble` is proven sufficient below. -/

/-- `next_lexicographic2` / `next_lexicographic3`: increment `cur[0]`; on
reaching `end[0]` reset it to `start[0]` and carry, the last axis ending the
iteration (`return 0` becomes `none`). -/
def next_lexicographic : List ℕ → List ℕ → List ℕ → Option (List ℕ)
  | c :: cs, s :: ss, e :: es =>
      if c + 1 = e then
        (if cs = [] then none
         else (next_lexicographic cs ss es).map (fun cs2 => s :: cs2))
      else some ((c + 1) :: cs)
  | _, _, _ => none

/-- A fueled do-while over `next_lexicographic`: run the body at the current
index, then advance; stop when the successor is exhausted. -/
def lexLoop {α : Type} (f : List ℕ → List α) (start stop : List ℕ) :
    ℕ → List ℕ → List α
  | 0, _ => []
  | fuel + 1, cur =>
      f cur ++
        (match next_lexicographic cur start stop with
          | none => []
          | some c2 => lexLoop f start stop fuel c2)

/-- `cur` lies in the box `[start, stop)` componentwise (and the three lists
have equal lengths). -/
def InBox : List ℕ → List ℕ → List ℕ → Prop
  | [], [], [] => True
  | s :: ss, e :: es, x :: xs => (s ≤ x ∧ x < e) ∧ InBox ss es xs
  | _, _, _ => False

instance : ∀ (s e x : List ℕ), Decidable (InBox s e x)
  | [], [], [] => .isTrue trivial
  | [], [], _ :: _ => .isFalse (fun h => h)
  | [], _ :: _, _ => .isFalse (fun h => h)
  | _ :: _, [], _ => .isFalse (fun h => h)
  | _ :: _, _ :: _, [] => .isFalse (fun h => h)
  | s :: ss, e :: es, x :: xs =>
      haveI : Decidable (InBox ss es xs) := instDecidableInBox ss es xs
      inferInstanceAs (Decidable ((s ≤ x ∧ x < e) ∧ InBox ss es xs))

/-- The tail of the traversal, listed: indices from `cur` to the end of the
box `[start, stop)` in axis-0-fastest order. -/
def rectFrom : List ℕ → List ℕ → List ℕ → List (List ℕ)
  | [], _, _ => [[]]
  | c :: cs, s :: ss, e :: es =>
      ((List.range' c (e - c)).map (fun x => x :: cs)) ++
        (rectFrom cs ss es).tail.flatMap
          (fun r => (List.range' s (e - s)).map (fun x => x :: r))
  | _ :: _, _, _ => []

/-- The whole box `[start, stop)` in axis-0-fastest order. -/
def boxList : List ℕ → List ℕ → List (List ℕ)
  | [], [] => [[]]
  | s :: ss, e :: es =>
      (boxList ss es).flatMap (fun r => (List.range' s (e - s)).map (fun x => x :: r))
  | _, _ => []

lemma next_lex_preserves :
    ∀ (c s e c2 : List ℕ), InBox s e c → next_lexicographic c s e = some c2 →
      InBox s e c2 := by
  intro c
  induction c with
  | nil =>
      intro s e c2 hbox hnext
      simp [next_lexicographic] at hnext
  | cons x xs ih =>
      intro s e c2 hbox hnext
      match s, e with
      | [], _ => simp [InBox] at hbox
      | _ :: _, [] => simp [InBox] at hbox
      | s0 :: ss, e0 :: es =>
          simp only [InBox] at hbox
          obtain ⟨⟨hs0, he0⟩, hrest⟩ := hbox
          simp only [next_lexicographic] at hnext
          by_cases hx : x + 1 = e0
          · rw [if_pos hx] at hnext
            by_cases hxs : xs = []
            · rw [if_pos hxs] at hnext
              exact absurd hnext (by simp)
            · rw [if_neg hxs] at hnext
              match hnx : next_lexicographic xs ss es with
              | none => rw [hnx] at hnext; exact absurd hnext (by simp)
              | some cs2 =>
                  rw [hnx] at hnext
                  simp only [Option.map_some', Option.some.injEq] at hnext
                  subst hnext
                  simp only [InBox]
                  exact ⟨⟨le_refl _, lt_of_le_of_lt hs0 he0⟩, ih ss es cs2 hrest hnx⟩
          · rw [if_neg hx] at hnext
            simp only [Option.some.injEq] at hnext
            subst hnext
            simp only [InBox]
            exact ⟨⟨by omega, by omega⟩, hrest⟩

lemma InBox_lengths :
    ∀ (s e x : List ℕ), InBox s e x → x.length = s.length ∧ s.length = e.length := by
  intro s
  induction s with
  | nil =>
      intro e x hbox
      match e, x with
      | [], [] => exact ⟨rfl, rfl⟩
      | [], _ :: _ => simp [InBox] at hbox
      | _ :: _, _ => simp [InBox] at hbox
  | cons s0 ss ih =>
      intro e x hbox
      match e, x with
      | [], _ => simp [InBox] at hbox
      | _ :: _, [] => simp [InBox] at hbox
      | e0 :: es, x0 :: xs =>
          simp only [InBox] at hbox
          obtain ⟨h1, h2⟩ := ih es xs hbox.2
          simp [h1, h2]

lemma rectFrom_eq_cons :
    ∀ (n : ℕ) (c s e : List ℕ), c.length = n → InBox s e c →
      rectFrom c s e = c ::
        (match next_lexicographic c s e with
          | none => []
          | some c2 => rectFrom c2 s e) := by
  intro n
  induction n with
  | zero =>
      intro c s e hlen hbox
      have hc : c = [] := List.length_eq_zero.mp hlen
      subst hc
      match s, e with
      | [], [] => simp [rectFrom, next_lexicographic]
      | [], _ :: _ => simp [InBox] at hbox
      | _ :: _, _ => simp [InBox] at hbox
  | succ n ih =>
      intro c s e hlen hbox
      match c, s, e with
      | [], _, _ => simp at hlen
      | _ :: _, [], _ => simp [InBox] at hbox
      | _ :: _, _ :: _, [] => simp [InBox] at hbox
      | x :: xs, s0 :: ss, e0 :: es =>
          simp only [InBox] at hbox
          obtain ⟨⟨hs0, he0⟩, hrest⟩ := hbox
          have hlenxs : xs.length = n := by simpa using hlen
          simp only [rectFrom, next_lexicographic]
          by_cases hx : x + 1 = e0
          · rw [if_pos hx]
            have hrange : List.range' x (e0 - x) = [x] := by
              have h1 : e0 - x = 1 := by omega
              rw [h1]
              rfl
            rw [hrange]
            by_cases hxs : xs = []
            · rw [if_pos hxs]
              subst hxs
              match ss, es, hrest with
              | [], [], _ => simp [rectFrom]
              | [], _ :: _, h => exact (h : False).elim
              | _ :: _, [], h => exact (h : False).elim
              | _ :: _, _ :: _, h => exact (h : False).elim
            · rw [if_neg hxs]
              have hxs2 := ih xs ss es hlenxs hrest
              match hnx : next_lexicographic xs ss es with
              | none =>
                  rw [hnx] at hxs2
                  simp only [Option.map_none']
                  simp only [] at hxs2
                  rw [hxs2]
                  simp
              | some cs2 =>
                  rw [hnx] at hxs2
                  simp only [Option.map_some']
                  rw [hxs2]
                  simp only [List.tail_cons, List.map_cons, List.map_nil,
                    List.singleton_append, List.cons_append, List.nil_append,
                    List.cons.injEq, true_and]
                  have hbox2 : InBox ss es cs2 := next_lex_preserves xs ss es cs2 hrest hnx
                  have hlen2 : cs2.length = n := by
                    obtain ⟨l1, _⟩ := InBox_lengths ss es cs2 hbox2
                    obtain ⟨l3, _⟩ := InBox_lengths ss es xs hrest
                    omega
                  have hnext2 := ih cs2 ss es hlen2 hbox2
                  show (rectFrom cs2 ss es).flatMap _ =
                    rectFrom (s0 :: cs2) (s0 :: ss) (e0 :: es)
                  rw [show rectFrom (s0 :: cs2) (s0 :: ss) (e0 :: es) =
                    ((List.range' s0 (e0 - s0)).map (fun v => v :: cs2)) ++
                      (rectFrom cs2 ss es).tail.flatMap
                        (fun r => (List.range' s0 (e0 - s0)).map (fun v => v :: r)) from rfl]
                  rw [hnext2]
                  simp [List.flatMap_cons, List.tail_cons]
          · rw [if_neg hx]
            have hrange : List.range' x (e0 - x) =
                x :: List.range' (x + 1) (e0 - (x + 1)) := by
              have h1 : e0 - x = (e0 - (x + 1)) + 1 := by omega
              rw [h1, List.range'_succ]
            rw [hrange]
            simp only [List.map_cons, List.cons_append, List.cons.injEq, true_and]
            simp [rectFrom]

/-- With enough fuel (the number of remaining indices), the do-while loop
emits exactly the concatenated bodies over `rectFrom`. -/
lemma lexLoop_eq {α : Type} (f : List ℕ → List α) :
    ∀ (fuel : ℕ) (c s e : List ℕ), InBox s e c → (rectFrom c s e).length ≤ fuel →
      lexLoop f s e fuel c = (rectFrom c s e).flatMap f := by
  intro fuel
  induction fuel with
  | zero =>
      intro c s e hbox hlen
      rw [rectFrom_eq_cons c.length c s e rfl hbox] at hlen
      simp at hlen
  | succ fuel ih =>
      intro c s e hbox hlen
      rw [rectFrom_eq_cons c.length c s e rfl hbox] at hlen ⊢
      simp only [lexLoop]
      match hnx : next_lexicographic c s e with
      | none => simp
      | some c2 =>
          dsimp only
          have hbox2 := next_lex_preserves c s e c2 hbox hnx
          have hlen2 : (rectFrom c2 s e).length ≤ fuel := by
            rw [hnx] at hlen
            simp at hlen
            omega
          rw [ih c2 s e hbox2 hlen2]
          simp

lemma boxList_head :
    ∀ (s e : List ℕ), InBox s e s → ∃ t, boxList s e = s :: t := by
  intro s
  induction s with
  | nil =>
      intro e hbox
      match e with
      | [] => exact ⟨[], rfl⟩
      | _ :: _ => simp [InBox] at hbox
  | cons s0 ss ih =>
      intro e hbox
      match e with
      | [] => simp [InBox] at hbox
      | e0 :: es =>
          simp only [InBox] at hbox
          obtain ⟨⟨_, he0⟩, hrest⟩ := hbox
          obtain ⟨t, ht⟩ := ih es hrest
          exact ⟨_, by
            show boxList (s0 :: ss) (e0 :: es) = _
            simp only [boxList, ht, List.flatMap_cons]
            rw [show List.range' s0 (e0 - s0) = s0 :: List.range' (s0 + 1) (e0 - (s0 + 1))
              from by rw [show e0 - s0 = (e0 - (s0 + 1)) + 1 from by omega, List.range'_succ]]
            simp only [List.map_cons, List.cons_append]
            rfl⟩

/-- The full traversal starting at `start` is exactly the box. -/
lemma rectFrom_full :
    ∀ (s e : List ℕ), InBox s e s → rectFrom s s e = boxList s e := by
  intro s
  induction s with
  | nil =>
      intro e hbox
      match e with
      | [] => rfl
      | _ :: _ => simp [InBox] at hbox
  | cons s0 ss ih =>
      intro e hbox
      match e with
      | [] => simp [InBox] at hbox
      | e0 :: es =>
          simp only [InBox] at hbox
          obtain ⟨⟨_, he0⟩, hrest⟩ := hbox
          obtain ⟨t, ht⟩ := boxList_head ss es hrest
          simp only [rectFrom, boxList]
          rw [ih es hrest, ht]
          simp [List.flatMap_cons]

lemma count_map_cons (rng : List ℕ) (r : List ℕ) (x : ℕ) (xs : List ℕ) :
    (rng.map (fun v => v :: r)).count (x :: xs) =
      if xs = r then rng.count x else 0 := by
  induction rng with
  | nil => simp
  | cons a rng ih =>
      simp only [List.map_cons, List.count_cons, ih, beq_iff_eq, List.cons.injEq]
      by_cases hxs : xs = r <;> by_cases hax : a = x <;>
        simp_all [List.count_cons, eq_comm]

lemma count_flatMap_cons (L : List (List ℕ)) (rng : List ℕ) (x : ℕ) (xs : List ℕ) :
    (L.flatMap (fun r => rng.map (fun v => v :: r))).count (x :: xs) =
      rng.count x * L.count xs := by
  induction L with
  | nil => simp
  | cons r L ih =>
      simp only [List.flatMap_cons, List.count_append, ih, count_map_cons,
        List.count_cons, beq_iff_eq]
      by_cases hxs : xs = r
      · subst hxs
        simp only [if_pos trivial, eq_self_iff_true, if_true]
        ring
      · have hrx : ¬ r = xs := fun h => hxs h.symm
        simp [hxs, hrx]

lemma count_range2 (a n y : ℕ) :
    (List.range' a n).count y = if a ≤ y ∧ y < a + n then 1 else 0 := by
  by_cases h : a ≤ y ∧ y < a + n
  · rw [if_pos h]
    exact List.count_eq_one_of_mem (List.nodup_range' a n 1 Nat.one_pos)
      (List.mem_range'_1.mpr h)
  · rw [if_neg h]
    exact List.count_eq_zero_of_not_mem (fun hm => h (List.mem_range'_1.mp hm))

lemma boxList_count :
    ∀ (s e x : List ℕ), (boxList s e).count x = if InBox s e x then 1 else 0 := by
  intro s
  induction s with
  | nil =>
      intro e x
      match e, x with
      | [], [] => simp [boxList, InBox]
      | [], y :: ys =>
          rw [if_neg (show ¬ InBox [] [] (y :: ys) from fun h => h)]
          simp [boxList]
      | e0 :: es, [] =>
          rw [if_neg (show ¬ InBox [] (e0 :: es) [] from fun h => h)]
          simp [boxList]
      | e0 :: es, y :: ys =>
          rw [if_neg (show ¬ InBox [] (e0 :: es) (y :: ys) from fun h => h)]
          simp [boxList]
  | cons s0 ss ih =>
      intro e x
      match e, x with
      | [], [] =>
          rw [if_neg (show ¬ InBox (s0 :: ss) [] [] from fun h => h)]
          simp [boxList]
      | [], y :: ys =>
          rw [if_neg (show ¬ InBox (s0 :: ss) [] (y :: ys) from fun h => h)]
          simp [boxList]
      | e0 :: es, [] =>
          rw [if_neg (show ¬ InBox (s0 :: ss) (e0 :: es) [] from fun h => h)]
          rw [List.count_eq_zero_of_not_mem]
          intro hm
          simp only [boxList, List.mem_flatMap, List.mem_map] at hm
          obtain ⟨r, _, v, _, hv⟩ := hm
          exact absurd hv (by simp)
      | e0 :: es, y :: ys =>
          show ((boxList ss es).flatMap
            (fun r => (List.range' s0 (e0 - s0)).map (fun v => v :: r))).count (y :: ys) = _
          rw [count_flatMap_cons, ih es ys, count_range2]
          simp only [InBox]
          by_cases h2 : InBox ss es ys
          · by_cases h1 : s0 ≤ y ∧ y < s0 + (e0 - s0)
            · have hy : y < e0 := by obtain ⟨ha, hb⟩ := h1; omega
              rw [if_pos h1, if_pos h2,
                if_pos (show (s0 ≤ y ∧ y < e0) ∧ InBox ss es ys from ⟨⟨h1.1, hy⟩, h2⟩)]
            · rw [if_pos h2, if_neg h1,
                if_neg (show ¬ ((s0 ≤ y ∧ y < e0) ∧ InBox ss es ys) from by
                  rintro ⟨⟨ha, hb⟩, _⟩
                  exact h1 ⟨ha, by omega⟩)]
          · rw [if_neg h2,
              if_neg (show ¬ ((s0 ≤ y ∧ y < e0) ∧ InBox ss es ys) from by
                rintro ⟨_, hcc⟩
                exact h2 hcc)]
            norm_num

lemma mem_boxList (s e x : List ℕ) : x ∈ boxList s e ↔ InBox s e x := by
  rw [← List.count_pos_iff, boxList_count]
  by_cases h : InBox s e x
  · simp [h]
  · simp [h]

lemma sum_map_eq_zero {α : Type} (L : List α) (f : α → ℚ)
    (hz : ∀ x ∈ L, f x = 0) : (L.map f).sum = 0 :=
  List.sum_eq_zero (by
    intro y hy
    obtain ⟨x, hx, rfl⟩ := List.mem_map.mp hy
    exact hz x hx)

lemma sum_map_eq_single {α : Type} [BEq α] [LawfulBEq α] :
    ∀ (L : List α) (f : α → ℚ) (t : α), L.count t = 1 →
      (∀ x ∈ L, x ≠ t → f x = 0) → (L.map f).sum = f t := by
  intro L
  induction L with
  | nil => intro f t hc _; simp at hc
  | cons a L ih =>
      intro f t hc hz
      simp only [List.count_cons, beq_iff_eq] at hc
      by_cases hat : a = t
      · subst hat
        have hc0 : L.count a = 0 := by simpa using hc
        have hnot : a ∉ L := by
          intro hm
          rw [← List.count_pos_iff] at hm
          omega
        simp only [List.map_cons, List.sum_cons]
        rw [sum_map_eq_zero L f (fun x hx => hz x (by simp [hx])
          (fun hxa => hnot (hxa ▸ hx)))]
        ring
      · have hfa : f a = 0 := hz a (by simp) hat
        simp only [List.map_cons, List.sum_cons, hfa, zero_add]
        refine ih f t ?_ (fun x hx hxt => hz x (by simp [hx]) hxt)
        simpa [hat] using hc

lemma boxList_length_le :
    ∀ (s e : List ℕ), s.length = e.length → (boxList s e).length ≤ e.prod := by
  intro s
  induction s with
  | nil =>
      intro e hlen
      have he : e = [] := List.length_eq_zero.mp hlen.symm
      subst he
      simp [boxList]
  | cons s0 ss ih =>
      intro e hlen
      match e with
      | [] => simp at hlen
      | e0 :: es =>
          have hlen2 : ss.length = es.length := by simpa using hlen
          show ((boxList ss es).flatMap _).length ≤ (e0 :: es).prod
          rw [List.length_flatMap]
          have hmap : ((boxList ss es).map
              (List.length ∘ fun r => (List.range' s0 (e0 - s0)).map (fun v => v :: r))) =
              List.replicate (boxList ss es).length (e0 - s0) := by
            rw [← List.map_const]
            exact List.map_congr_left (fun r _ => by simp)
          rw [hmap, List.sum_replicate, smul_eq_mul, List.prod_cons]
          calc (boxList ss es).length * (e0 - s0)
              ≤ es.prod * e0 :=
                Nat.mul_le_mul (ih es hlen2) (Nat.sub_le _ _)
            _ = e0 * es.prod := Nat.mul_comm _ _

/-! ## Linearization `to_seq` (source lines 600-602 and 784-786)

`ii = (i[0]*ndofs[1] + i[1]) …`: a left fold multiplying by each axis size
and adding the component, starting from the accumulator `0`.  (For axis 0
the multiplier `ndofs[0]` multiplies the zero accumulator, exactly as in the
source formula, so it is never read.) -/

def to_seq_from (acc : ℕ) : List ℕ → List ℕ → ℕ
  | n :: ns, x :: xs => to_seq_from (acc * n + x) ns xs
  | _, _ => acc

/-- `BaseAssembler2D.to_seq` / `BaseAssembler3D.to_seq`, `d`-ary. -/
def to_seq (ndofs idx : List ℕ) : ℕ := to_seq_from 0 ndofs idx

/-- Positional value of a multi-index: the mathematical meaning of
`to_seq`. -/
def seqVal : List ℕ → List ℕ → ℕ
  | _ :: ns, x :: xs => x * ns.prod + seqVal ns xs
  | _, _ => 0

/-- A multi-index is valid for the dof counts: same length, each component
below its axis count. -/
def ValidIdx : List ℕ → List ℕ → Prop
  | [], [] => True
  | n :: ns, x :: xs => x < n ∧ ValidIdx ns xs
  | _, _ => False

instance : ∀ (ns xs : List ℕ), Decidable (ValidIdx ns xs)
  | [], [] => .isTrue trivial
  | [], _ :: _ => .isFalse (fun h => h)
  | _ :: _, [] => .isFalse (fun h => h)
  | n :: ns, x :: xs =>
      haveI : Decidable (ValidIdx ns xs) := instDecidableValidIdx ns xs
      inferInstanceAs (Decidable (x < n ∧ ValidIdx ns xs))

lemma ValidIdx_length : ∀ (ns xs : List ℕ), ValidIdx ns xs → ns.length = xs.length := by
  intro ns
  induction ns with
  | nil =>
      intro xs h
      match xs with
      | [] => rfl
      | _ :: _ => exact (h : False).elim
  | cons n ns ih =>
      intro xs h
      match xs with
      | [] => exact (h : False).elim
      | x :: xs => simpa using ih xs h.2

lemma to_seq_from_eq :
    ∀ (ns xs : List ℕ) (acc : ℕ), ns.length = xs.length →
      to_seq_from acc ns xs = acc * ns.prod + seqVal ns xs := by
  intro ns
  induction ns with
  | nil =>
      intro xs acc hlen
      have hx : xs = [] := List.length_eq_zero.mp hlen.symm
      subst hx
      simp [to_seq_from, seqVal]
  | cons n ns ih =>
      intro xs acc hlen
      match xs with
      | [] => simp at hlen
      | x :: xs =>
          have hlen2 : ns.length = xs.length := by simpa using hlen
          show to_seq_from (acc * n + x) ns xs =
            acc * (n :: ns).prod + seqVal (n :: ns) (x :: xs)
          rw [ih xs (acc * n + x) hlen2]
          show (acc * n + x) * ns.prod + seqVal ns xs =
            acc * (n :: ns).prod + (x * ns.prod + seqVal ns xs)
          rw [List.prod_cons]
          ring

lemma to_seq_eq_seqVal (ns xs : List ℕ) (h : ns.length = xs.length) :
    to_seq ns xs = seqVal ns xs := by
  unfold to_seq
  rw [to_seq_from_eq ns xs 0 h]
  simp

lemma seqVal_lt : ∀ (ns xs : List ℕ), ValidIdx ns xs → seqVal ns xs < ns.prod := by
  intro ns
  induction ns with
  | nil =>
      intro xs h
      match xs with
      | [] => simp [seqVal]
      | _ :: _ => exact (h : False).elim
  | cons n ns ih =>
      intro xs h
      match xs with
      | [] => exact (h : False).elim
      | x :: xs =>
          obtain ⟨hx, hrest⟩ := h
          have hv := ih xs hrest
          show x * ns.prod + seqVal ns xs < (n :: ns).prod
          rw [List.prod_cons]
          have h1 : (x + 1) * ns.prod ≤ n * ns.prod := Nat.mul_le_mul_right _ (by omega)
          have h2 : (x + 1) * ns.prod = x * ns.prod + ns.prod := by ring
          omega

lemma seqVal_inj :
    ∀ (ns xs ys : List ℕ), ValidIdx ns xs → ValidIdx ns ys →
      seqVal ns xs = seqVal ns ys → xs = ys := by
  intro ns
  induction ns with
  | nil =>
      intro xs ys hx hy _
      match xs, ys with
      | [], [] => rfl
      | [], _ :: _ => exact (hy : False).elim
      | _ :: _, _ => exact (hx : False).elim
  | cons n ns ih =>
      intro xs ys hx hy heq
      match xs, ys with
      | [], _ => exact (hx : False).elim
      | _ :: _, [] => exact (hy : False).elim
      | x :: xs, y :: ys =>
          obtain ⟨hxn, hxrest⟩ := hx
          obtain ⟨hyn, hyrest⟩ := hy
          have hvx := seqVal_lt ns xs hxrest
          have hvy := seqVal_lt ns ys hyrest
          have heq2 : x * ns.prod + seqVal ns xs = y * ns.prod + seqVal ns ys := heq
          have hxy : x = y := by
            rcases Nat.lt_trichotomy x y with h | h | h
            · exfalso
              have h1 : (x + 1) * ns.prod ≤ y * ns.prod := Nat.mul_le_mul_right _ (by omega)
              have h2 : (x + 1) * ns.prod = x * ns.prod + ns.prod := by ring
              omega
            · exact h
            · exfalso
              have h1 : (y + 1) * ns.prod ≤ x * ns.prod := Nat.mul_le_mul_right _ (by omega)
              have h2 : (y + 1) * ns.prod = y * ns.prod + ns.prod := by ring
              omega
          subst hxy
          have : seqVal ns xs = seqVal ns ys := by omega
          rw [ih xs ys hxrest hyrest this]

/-! ## `generic_assemble_2d` / `generic_assemble_3d`
(source lines 951-1006 and 1034-1090)

The two drivers are the same routine at `d = 2, 3`: the model carries the
per-axis dof counts and mesh-support tables as lists (`BaseAssembler2D/3D`
fields `ndofs`, `meshsupp`) and the entry evaluator `assemble_impl` as a
function of two multi-indices.  The emitted triplet stream models the
`entries_i/entries_j/entries` vectors; `cooSum` models the duplicate-summing
`scipy.sparse.coo_matrix(...)` accumulation. -/

structure AsmG where
  ndofs : List ℕ
  meshsupp : List SupportTable
  impl : List ℕ → List ℕ → ℚ

/-- The body of the `j` loop: if `jj >= ii`, evaluate the entry once, emit
`(ii, jj, entry)` and, when `ii != jj`, the mirrored `(jj, ii, entry)`. -/
def emitEntry (asm : AsmG) (i : List ℕ) (ii : ℕ) (j : List ℕ) : List (ℕ × ℕ × ℚ) :=
  let jj := to_seq asm.ndofs j
  if ii ≤ jj then
    (ii, jj, asm.impl i j) ::
      (if ii ≠ jj then [(jj, ii, asm.impl i j)] else [])
  else []

/-- The neighbor range of row `i` on axis `k` (the `intv` of the source's
`for k in range(d)` loop). -/
def nbrInterval (asm : AsmG) (i : List ℕ) (k : ℕ) : ℕ × ℕ :=
  find_joint_support_functions (asm.meshsupp.getD k []) (i.getD k 0)

/-- The body of the `i` loop: compute the per-axis neighbor ranges via
`find_joint_support_functions` and run the inner `j` do-while over them. -/
def rowEmit (asm : AsmG) (i : List ℕ) : List (ℕ × ℕ × ℚ) :=
  let ii := to_seq asm.ndofs i
  let nbr := (List.range asm.ndofs.length).map (nbrInterval asm i)
  let jstart := nbr.map Prod.fst
  let jstop := nbr.map Prod.snd
  lexLoop (emitEntry asm i ii) jstart jstop (jstop.prod + 1) jstart

/-- `generic_assemble_2d` / `generic_assemble_3d`: the triplet stream of the
full double do-while, starting at `dof_start` (axis 0 clamped to the chunk
when `chunk_start/chunk_end >= 0`, as in the source). -/
def generic_assemble (asm : AsmG) (chunk_start chunk_end : ℤ) : List (ℕ × ℕ × ℚ) :=
  let d := asm.ndofs.length
  let dof_start := (List.replicate d 0).set 0
    (if 0 ≤ chunk_start then chunk_start.toNat else 0)
  let dof_end := if 0 ≤ chunk_end then asm.ndofs.set 0 chunk_end.toNat else asm.ndofs
  lexLoop (rowEmit asm) dof_start dof_end (dof_end.prod + 1) dof_start

/-- Duplicate-summing accumulation of a triplet stream into a matrix entry:
the value of the `coo_matrix` at `(a, b)`. -/
def cooSum (ts : List (ℕ × ℕ × ℚ)) (a b : ℕ) : ℚ :=
  ((ts.filter (fun t => decide (t.1 = a ∧ t.2.1 = b))).map (fun t => t.2.2)).sum

/-- `generic_assemble_2d_parallel` / `generic_assemble_3d_parallel` (source
lines 1009-1017, 1093-1101): with `W <= 1` workers, call the sequential path
directly; otherwise run one chunked traversal per chunk of
`chunk_tasks(range(ndofs[0]), 4*W)` and sum the resulting sparse matrices
coordinate-wise. -/
def generic_assemble_parallel (asm : AsmG) (W : ℕ) : ℕ → ℕ → ℚ :=
  if W ≤ 1 then cooSum (generic_assemble asm (-1) (-1))
  else fun a b =>
    ((chunk_tasks (asm.ndofs.getD 0 0) (4 * W)).map
      (fun rg => cooSum (generic_assemble asm (rg.1 : ℤ) (rg.2 : ℤ)) a b)).sum

lemma cooSum_append (l1 l2 : List (ℕ × ℕ × ℚ)) (a b : ℕ) :
    cooSum (l1 ++ l2) a b = cooSum l1 a b + cooSum l2 a b := by
  unfold cooSum
  rw [List.filter_append, List.map_append, List.sum_append]

lemma cooSum_flatMap {α : Type} (L : List α) (f : α → List (ℕ × ℕ × ℚ)) (a b : ℕ) :
    cooSum (L.flatMap f) a b = (L.map (fun x => cooSum (f x) a b)).sum := by
  induction L with
  | nil => simp [cooSum]
  | cons x L ih => simp [List.flatMap_cons, cooSum_append, ih]

lemma InBox_iff_getD :
    ∀ (s e x : List ℕ), InBox s e x ↔
      (x.length = s.length ∧ s.length = e.length ∧
        ∀ k, k < s.length → s.getD k 0 ≤ x.getD k 0 ∧ x.getD k 0 < e.getD k 0) := by
  intro s
  induction s with
  | nil =>
      intro e x
      match e, x with
      | [], [] => simp [InBox]
      | [], _ :: _ => simp [InBox]
      | _ :: _, [] => simp [InBox]
      | _ :: _, _ :: _ => simp [InBox]
  | cons s0 ss ih =>
      intro e x
      match e, x with
      | [], [] => simp [InBox]
      | [], _ :: _ => simp [InBox]
      | _ :: _, [] => simp [InBox]
      | e0 :: es, x0 :: xs =>
          simp only [InBox, ih es xs, List.length_cons]
          constructor
          · rintro ⟨⟨h1, h2⟩, h3, h4, h5⟩
            refine ⟨by omega, by omega, fun k hk => ?_⟩
            match k with
            | 0 => exact ⟨h1, h2⟩
            | k + 1 => exact h5 k (by omega)
          · rintro ⟨h3, h4, h5⟩
            refine ⟨h5 0 (by omega), by omega, by omega, fun k hk => h5 (k + 1) (by omega)⟩

lemma ValidIdx_iff_getD :
    ∀ (ns xs : List ℕ), ValidIdx ns xs ↔
      (ns.length = xs.length ∧ ∀ k, k < ns.length → xs.getD k 0 < ns.getD k 0) := by
  intro ns
  induction ns with
  | nil =>
      intro xs
      match xs with
      | [] => simp [ValidIdx]
      | _ :: _ => simp [ValidIdx]
  | cons n ns ih =>
      intro xs
      match xs with
      | [] => simp [ValidIdx]
      | x :: xs =>
          simp only [ValidIdx, ih xs, List.length_cons]
          constructor
          · rintro ⟨h1, h2, h3⟩
            refine ⟨by omega, fun k hk => ?_⟩
            match k with
            | 0 => exact h1
            | k + 1 => exact h3 k (by omega)
          · rintro ⟨h1, h2⟩
            exact ⟨h2 0 (by omega), by omega, fun k hk => h2 (k + 1) (by omega)⟩

/-! Hypotheses of the sparsity-traversal correctness statement. -/

/-- The assembler's mesh-support tables satisfy the B-spline invariants: one
table per axis, one (nonempty, monotone) interval per dof. -/
def GoodTables (asm : AsmG) : Prop :=
  asm.meshsupp.length = asm.ndofs.length ∧
  ∀ k, k < asm.ndofs.length →
    (asm.meshsupp.getD k []).length = asm.ndofs.getD k 0 ∧
    LeftSorted (asm.meshsupp.getD k []) ∧
    RightSorted (asm.meshsupp.getD k []) ∧
    AllNonempty (asm.meshsupp.getD k [])

instance (asm : AsmG) : Decidable (GoodTables asm) := by
  unfold GoodTables; infer_instance

/-- `assemble_impl` vanishes whenever some axis's supports do not overlap
(the property proved for all four concrete assemblers in claim C4). -/
def VanishOffSupport (asm : AsmG) : Prop :=
  ∀ i j : List ℕ,
    (∃ k, k < asm.ndofs.length ∧
      ¬ intervalsOverlap (suppAt (asm.meshsupp.getD k []) (i.getD k 0))
        (suppAt (asm.meshsupp.getD k []) (j.getD k 0))) →
    asm.impl i j = 0

lemma intervalsOverlap_comm (p q : IntInterval) :
    intervalsOverlap p q ↔ intervalsOverlap q p := by
  unfold intervalsOverlap
  rw [max_comm, min_comm]

lemma getD_map_range {α : Type} (d k : ℕ) (f : ℕ → α) (dflt : α) (hk : k < d) :
    ((List.range d).map f).getD k dflt = f k := by
  rw [List.getD_eq_getElem _ _ (by simpa using hk)]
  simp

lemma sum_map_add {α : Type} (L : List α) (f g : α → ℚ) :
    (L.map (fun x => f x + g x)).sum = (L.map f).sum + (L.map g).sum := by
  induction L with
  | nil => simp
  | cons x L ih => simp [ih]; ring

/-- The start and stop lists of the inner `j` loop of row `i`. -/
def nbrStart (asm : AsmG) (i : List ℕ) : List ℕ :=
  ((List.range asm.ndofs.length).map (nbrInterval asm i)).map Prod.fst

def nbrStop (asm : AsmG) (i : List ℕ) : List ℕ :=
  ((List.range asm.ndofs.length).map (nbrInterval asm i)).map Prod.snd

lemma rowEmit_def (asm : AsmG) (i : List ℕ) :
    rowEmit asm i = lexLoop (emitEntry asm i (to_seq asm.ndofs i))
      (nbrStart asm i) (nbrStop asm i) ((nbrStop asm i).prod + 1) (nbrStart asm i) := rfl

lemma nbrStart_length (asm : AsmG) (i : List ℕ) :
    (nbrStart asm i).length = asm.ndofs.length := by simp [nbrStart]

lemma nbrStop_length (asm : AsmG) (i : List ℕ) :
    (nbrStop asm i).length = asm.ndofs.length := by simp [nbrStop]

lemma nbrStart_getD (asm : AsmG) (i : List ℕ) (k : ℕ) (hk : k < asm.ndofs.length) :
    (nbrStart asm i).getD k 0 = (nbrInterval asm i k).1 := by
  unfold nbrStart
  rw [List.map_map]
  exact getD_map_range _ _ _ _ hk

lemma nbrStop_getD (asm : AsmG) (i : List ℕ) (k : ℕ) (hk : k < asm.ndofs.length) :
    (nbrStop asm i).getD k 0 = (nbrInterval asm i k).2 := by
  unfold nbrStop
  rw [List.map_map]
  exact getD_map_range _ _ _ _ hk

section NeighborBox

variable (asm : AsmG)

lemma nbrInterval_bounds (hgt : GoodTables asm) (i : List ℕ)
    (hi : ValidIdx asm.ndofs i) (k : ℕ) (hk : k < asm.ndofs.length) :
    (nbrInterval asm i k).1 ≤ i.getD k 0 ∧ i.getD k 0 < (nbrInterval asm i k).2 ∧
    (nbrInterval asm i k).2 ≤ asm.ndofs.getD k 0 := by
  obtain ⟨hlen, htab⟩ := hgt
  obtain ⟨hlenk, hL, hR, hNE⟩ := htab k hk
  obtain ⟨hvl, hvk⟩ := (ValidIdx_iff_getD asm.ndofs i).mp hi
  have hik : i.getD k 0 < (asm.meshsupp.getD k []).length := by
    rw [hlenk]; exact hvk k hk
  have hne := hNE (i.getD k 0) hik
  obtain ⟨h1, h2, h3⟩ := find_joint_bounds (asm.meshsupp.getD k []) (i.getD k 0) hik hne
  exact ⟨h1, h2, by rw [← hlenk]; exact h3⟩

lemma nbr_box_start (hgt : GoodTables asm) (i : List ℕ)
    (hi : ValidIdx asm.ndofs i) :
    InBox (nbrStart asm i) (nbrStop asm i) (nbrStart asm i) := by
  rw [InBox_iff_getD]
  refine ⟨rfl, by rw [nbrStart_length, nbrStop_length], fun k hk => ?_⟩
  rw [nbrStart_length] at hk
  rw [nbrStart_getD asm i k hk, nbrStop_getD asm i k hk]
  obtain ⟨h1, h2, _⟩ := nbrInterval_bounds asm hgt i hi k hk
  exact ⟨le_refl _, by omega⟩

lemma nbr_mem_valid (hgt : GoodTables asm) (i : List ℕ)
    (hi : ValidIdx asm.ndofs i) (x : List ℕ)
    (hx : InBox (nbrStart asm i) (nbrStop asm i) x) : ValidIdx asm.ndofs x := by
  rw [InBox_iff_getD] at hx
  obtain ⟨hx1, _, hx3⟩ := hx
  rw [nbrStart_length] at hx1 hx3
  rw [ValidIdx_iff_getD]
  refine ⟨by omega, fun k hk => ?_⟩
  obtain ⟨_, hb⟩ := hx3 k hk
  rw [nbrStop_getD asm i k hk] at hb
  obtain ⟨_, _, h3⟩ := nbrInterval_bounds asm hgt i hi k hk
  omega

lemma nbr_mem_iff (hgt : GoodTables asm) (i : List ℕ)
    (hi : ValidIdx asm.ndofs i) (J : List ℕ) (hJ : ValidIdx asm.ndofs J) :
    InBox (nbrStart asm i) (nbrStop asm i) J ↔
      ∀ k, k < asm.ndofs.length →
        intervalsOverlap (suppAt (asm.meshsupp.getD k []) (J.getD k 0))
          (suppAt (asm.meshsupp.getD k []) (i.getD k 0)) := by
  obtain ⟨hlen, htab⟩ := hgt
  obtain ⟨hvl, hvk⟩ := (ValidIdx_iff_getD asm.ndofs i).mp hi
  obtain ⟨hJl, hJk⟩ := (ValidIdx_iff_getD asm.ndofs J).mp hJ
  rw [InBox_iff_getD]
  constructor
  · rintro ⟨h1, h2, h3⟩ k hk
    rw [nbrStart_length] at h3
    obtain ⟨ha, hb⟩ := h3 k hk
    rw [nbrStart_getD asm i k hk] at ha
    rw [nbrStop_getD asm i k hk] at hb
    obtain ⟨hlenk, hL, hR, hNE⟩ := htab k hk
    have hik : i.getD k 0 < (asm.meshsupp.getD k []).length := by
      rw [hlenk]; exact hvk k hk
    have hJkk : J.getD k 0 < (asm.meshsupp.getD k []).length := by
      rw [hlenk]; exact hJk k hk
    exact (neighbor_range_iff_overlap (asm.meshsupp.getD k []) (i.getD k 0) hik
      hL hR hNE (J.getD k 0) hJkk).mp ⟨ha, hb⟩
  · intro hov
    refine ⟨by rw [nbrStart_length]; omega, by rw [nbrStart_length, nbrStop_length],
      fun k hk => ?_⟩
    rw [nbrStart_length] at hk
    rw [nbrStart_getD asm i k hk, nbrStop_getD asm i k hk]
    obtain ⟨hlenk, hL, hR, hNE⟩ := htab k hk
    have hik : i.getD k 0 < (asm.meshsupp.getD k []).length := by
      rw [hlenk]; exact hvk k hk
    have hJkk : J.getD k 0 < (asm.meshsupp.getD k []).length := by
      rw [hlenk]; exact hJk k hk
    exact (neighbor_range_iff_overlap (asm.meshsupp.getD k []) (i.getD k 0) hik
      hL hR hNE (J.getD k 0) hJkk).mpr (hov k hk)

end NeighborBox

lemma cooSum_nil (a b : ℕ) : cooSum [] a b = 0 := rfl

lemma cooSum_cons (t : ℕ × ℕ × ℚ) (ts : List (ℕ × ℕ × ℚ)) (a b : ℕ) :
    cooSum (t :: ts) a b =
      (if t.1 = a ∧ t.2.1 = b then t.2.2 else 0) + cooSum ts a b := by
  unfold cooSum
  rw [List.filter_cons]
  by_cases h : t.1 = a ∧ t.2.1 = b
  · simp [h]
  · simp [h]

lemma cooSum_emitEntry (asm : AsmG) (i j : List ℕ) (ii a b : ℕ) :
    cooSum (emitEntry asm i ii j) a b =
      (if ii ≤ to_seq asm.ndofs j ∧ ii = a ∧ to_seq asm.ndofs j = b
        then asm.impl i j else 0) +
      (if (ii ≤ to_seq asm.ndofs j ∧ ii ≠ to_seq asm.ndofs j) ∧
          to_seq asm.ndofs j = a ∧ ii = b
        then asm.impl i j else 0) := by
  unfold emitEntry
  set jj := to_seq asm.ndofs j with hjj
  by_cases h1 : ii ≤ jj
  · rw [if_pos h1]
    have e1 : (if ii ≤ jj ∧ ii = a ∧ jj = b then asm.impl i j else 0) =
        (if ii = a ∧ jj = b then asm.impl i j else 0) := by
      by_cases hc : ii = a ∧ jj = b
      · rw [if_pos ⟨h1, hc⟩, if_pos hc]
      · rw [if_neg (fun hcc => hc hcc.2), if_neg hc]
    by_cases h2 : ii = jj
    · rw [if_neg (fun hcc => hcc h2)]
      rw [cooSum_cons, cooSum_nil, add_zero]
      have e2 : (if (ii ≤ jj ∧ ii ≠ jj) ∧ jj = a ∧ ii = b then asm.impl i j else 0) = 0 := by
        rw [if_neg]
        rintro ⟨⟨_, hne⟩, _⟩
        exact hne h2
      rw [e1, e2, add_zero]
    · rw [if_pos h2]
      rw [cooSum_cons, cooSum_cons, cooSum_nil, add_zero]
      have e2 : (if (ii ≤ jj ∧ ii ≠ jj) ∧ jj = a ∧ ii = b then asm.impl i j else 0) =
          (if jj = a ∧ ii = b then asm.impl i j else 0) := by
        by_cases hc : jj = a ∧ ii = b
        · rw [if_pos ⟨⟨h1, h2⟩, hc⟩, if_pos hc]
        · rw [if_neg (fun hcc => hc hcc.2), if_neg hc]
      rw [e1, e2]
  · rw [if_neg h1, cooSum_nil]
    rw [if_neg (fun hc => h1 hc.1), if_neg (fun hc => h1 hc.1.1)]
    norm_num

/-- One row of the traversal, accumulated at target position
`(to_seq I, to_seq J)`: row `i` contributes `impl I J` directly when
`i = I` and the target is on or above the diagonal, and `impl J I` as a
mirror when `i = J` and the target is strictly below the diagonal. -/
lemma rowEmit_cooSum (asm : AsmG) (hgt : GoodTables asm) (hvan : VanishOffSupport asm)
    (i I J : List ℕ) (hi : ValidIdx asm.ndofs i) (hI : ValidIdx asm.ndofs I)
    (hJ : ValidIdx asm.ndofs J) :
    cooSum (rowEmit asm i) (to_seq asm.ndofs I) (to_seq asm.ndofs J) =
      (if i = I ∧ to_seq asm.ndofs I ≤ to_seq asm.ndofs J then asm.impl I J else 0) +
      (if i = J ∧ to_seq asm.ndofs J < to_seq asm.ndofs I then asm.impl J I else 0) := by
  set ns := nbrStart asm i with hns
  set np := nbrStop asm i with hnp
  set a := to_seq asm.ndofs I with ha
  set b := to_seq asm.ndofs J with hb
  set ii := to_seq asm.ndofs i with hii
  have hinj : ∀ x y : List ℕ, ValidIdx asm.ndofs x → ValidIdx asm.ndofs y →
      to_seq asm.ndofs x = to_seq asm.ndofs y → x = y := by
    intro x y hx hy heq
    rw [to_seq_eq_seqVal _ _ (ValidIdx_length _ _ hx),
      to_seq_eq_seqVal _ _ (ValidIdx_length _ _ hy)] at heq
    exact seqVal_inj asm.ndofs x y hx hy heq
  have hbox0 := nbr_box_start asm hgt i hi
  have hflat : rowEmit asm i = (boxList ns np).flatMap (emitEntry asm i ii) := by
    rw [rowEmit_def]
    have hlen : ns.length = np.length := by
      rw [hns, hnp, nbrStart_length, nbrStop_length]
    have hful := rectFrom_full ns np hbox0
    have hlenle := boxList_length_le ns np hlen
    rw [lexLoop_eq (emitEntry asm i ii) (np.prod + 1) ns ns np hbox0
      (by rw [hful]; omega), hful]
  rw [hflat, cooSum_flatMap]
  have hmapeq : (boxList ns np).map (fun j => cooSum (emitEntry asm i ii j) a b) =
      (boxList ns np).map (fun j =>
        (if ii ≤ to_seq asm.ndofs j ∧ ii = a ∧ to_seq asm.ndofs j = b
          then asm.impl i j else 0) +
        (if (ii ≤ to_seq asm.ndofs j ∧ ii ≠ to_seq asm.ndofs j) ∧
            to_seq asm.ndofs j = a ∧ ii = b
          then asm.impl i j else 0)) :=
    List.map_congr_left (fun j _ => cooSum_emitEntry asm i j ii a b)
  rw [hmapeq, sum_map_add]
  congr 1
  · by_cases hiI : i = I
    · have hiia : ii = a := by rw [hii, ha, hiI]
      by_cases hab : a ≤ b
      · rw [if_pos ⟨hiI, hab⟩]
        by_cases hJmem : InBox ns np J
        · rw [sum_map_eq_single (boxList ns np) _ J ?cnt ?zero]
          case cnt => rw [boxList_count, if_pos hJmem]
          case zero =>
            intro x hx hxJ
            apply if_neg
            rintro ⟨_, _, hxb⟩
            have hxv := nbr_mem_valid asm hgt i hi x ((mem_boxList _ _ _).mp hx)
            exact hxJ (hinj x J hxv hJ (hxb.trans hb))
          have hcnd : ii ≤ b ∧ ii = a ∧ b = b := ⟨by omega, hiia, rfl⟩
          rw [← hb, if_pos hcnd, hiI]
        · have himpl0 : asm.impl i J = 0 := by
            apply hvan
            have hno := (not_iff_not.mpr (nbr_mem_iff asm hgt i hi J hJ)).mp hJmem
            push_neg at hno
            obtain ⟨k, hk, hnov⟩ := hno
            exact ⟨k, hk, fun hc => hnov ((intervalsOverlap_comm _ _).mp hc)⟩
          rw [sum_map_eq_zero _ _ ?zero2]
          case zero2 =>
            intro x hx
            apply if_neg
            rintro ⟨_, _, hxb⟩
            have hxv := nbr_mem_valid asm hgt i hi x ((mem_boxList _ _ _).mp hx)
            have hxJ : x = J := hinj x J hxv hJ (hxb.trans hb)
            exact hJmem ((mem_boxList _ _ _).mp (hxJ ▸ hx))
          rw [← hiI]
          exact himpl0.symm
      · rw [if_neg (fun hc => hab hc.2)]
        apply sum_map_eq_zero
        intro x hx
        apply if_neg
        rintro ⟨hle, hia, hxb⟩
        exact hab (by omega)
    · rw [if_neg (fun hc => hiI hc.1)]
      apply sum_map_eq_zero
      intro x hx
      apply if_neg
      rintro ⟨_, hia, _⟩
      exact hiI (hinj i I hi hI (hii.symm.trans (hia.trans ha)))
  · by_cases hiJ : i = J
    · have hiib : ii = b := by rw [hii, hb, hiJ]
      by_cases hba : b < a
      · rw [if_pos ⟨hiJ, hba⟩]
        by_cases hImem : InBox ns np I
        · rw [sum_map_eq_single (boxList ns np) _ I ?cnt3 ?zero3]
          case cnt3 => rw [boxList_count, if_pos hImem]
          case zero3 =>
            intro x hx hxI
            apply if_neg
            rintro ⟨_, hxa, _⟩
            have hxv := nbr_mem_valid asm hgt i hi x ((mem_boxList _ _ _).mp hx)
            exact hxI (hinj x I hxv hI (hxa.trans ha))
          have hcnd2 : (ii ≤ a ∧ ii ≠ a) ∧ a = a ∧ ii = b :=
            ⟨⟨by omega, by omega⟩, rfl, hiib⟩
          rw [← ha, if_pos hcnd2, hiJ]
        · have himpl0 : asm.impl i I = 0 := by
            apply hvan
            have hno := (not_iff_not.mpr (nbr_mem_iff asm hgt i hi I hI)).mp hImem
            push_neg at hno
            obtain ⟨k, hk, hnov⟩ := hno
            exact ⟨k, hk, fun hc => hnov ((intervalsOverlap_comm _ _).mp hc)⟩
          rw [sum_map_eq_zero _ _ ?zero4]
          case zero4 =>
            intro x hx
            apply if_neg
            rintro ⟨_, hxa, _⟩
            have hxv := nbr_mem_valid asm hgt i hi x ((mem_boxList _ _ _).mp hx)
            have hxI : x = I := hinj x I hxv hI (hxa.trans ha)
            exact hImem ((mem_boxList _ _ _).mp (hxI ▸ hx))
          rw [← hiJ]
          exact himpl0.symm
      · rw [if_neg (fun hc => hba hc.2)]
        apply sum_map_eq_zero
        intro x hx
        apply if_neg
        rintro ⟨⟨hle, hne⟩, hxa, hib⟩
        exact hba (by omega)
    · rw [if_neg (fun hc => hiJ hc.1)]
      apply sum_map_eq_zero
      intro x hx
      apply if_neg
      rintro ⟨_, _, hib⟩
      exact hiJ (hinj i J hi hJ (hii.symm.trans (hib.trans hb)))

/-! The chunk geometry of the outer traversal: the effective axis-0 start and
stop of `generic_assemble`, and the start/end multi-indices of its do-while. -/

/-- Effective axis-0 start of the traversal for a given `chunk_start`. -/
def chunkLo (cs : ℤ) : ℕ := if 0 ≤ cs then cs.toNat else 0

/-- Effective axis-0 stop of the traversal for a given `chunk_end`. -/
def chunkHi (asm : AsmG) (ce : ℤ) : ℕ :=
  if 0 ≤ ce then ce.toNat else asm.ndofs.getD 0 0

/-- The `dof_start` multi-index of `generic_assemble`. -/
def dofStart (asm : AsmG) (cs : ℤ) : List ℕ :=
  (List.replicate asm.ndofs.length 0).set 0 (chunkLo cs)

/-- The `dof_end` multi-index of `generic_assemble`. -/
def dofEnd (asm : AsmG) (ce : ℤ) : List ℕ :=
  if 0 ≤ ce then asm.ndofs.set 0 ce.toNat else asm.ndofs

lemma generic_assemble_def (asm : AsmG) (cs ce : ℤ) :
    generic_assemble asm cs ce =
      lexLoop (rowEmit asm) (dofStart asm cs) (dofEnd asm ce)
        ((dofEnd asm ce).prod + 1) (dofStart asm cs) := rfl

lemma getD_replicate_zero : ∀ (d k : ℕ), (List.replicate d (0 : ℕ)).getD k 0 = 0 := by
  intro d
  induction d with
  | zero => intro k; simp
  | succ d ih =>
      intro k
      match k with
      | 0 => simp [List.replicate_succ]
      | k + 1 =>
          rw [List.replicate_succ, List.getD_cons_succ]
          exact ih k

lemma getD_set_zero_zero (l : List ℕ) (x : ℕ) (hl : 0 < l.length) :
    (l.set 0 x).getD 0 0 = x := by
  match l with
  | [] => simp at hl
  | a :: t => rfl

lemma getD_set_zero_succ (l : List ℕ) (x k : ℕ) :
    (l.set 0 x).getD (k + 1) 0 = l.getD (k + 1) 0 := by
  match l with
  | [] => rfl
  | a :: t => rfl

lemma dofStart_length (asm : AsmG) (cs : ℤ) :
    (dofStart asm cs).length = asm.ndofs.length := by
  simp [dofStart]

lemma dofEnd_length (asm : AsmG) (ce : ℤ) :
    (dofEnd asm ce).length = asm.ndofs.length := by
  unfold dofEnd
  split <;> simp

lemma dofStart_getD_zero (asm : AsmG) (cs : ℤ) (hd : 0 < asm.ndofs.length) :
    (dofStart asm cs).getD 0 0 = chunkLo cs :=
  getD_set_zero_zero _ _ (by simpa using hd)

lemma dofStart_getD_succ (asm : AsmG) (cs : ℤ) (k : ℕ) :
    (dofStart asm cs).getD (k + 1) 0 = 0 := by
  unfold dofStart
  rw [getD_set_zero_succ]
  exact getD_replicate_zero _ _

lemma dofEnd_getD_zero (asm : AsmG) (ce : ℤ) (hd : 0 < asm.ndofs.length) :
    (dofEnd asm ce).getD 0 0 = chunkHi asm ce := by
  unfold dofEnd chunkHi
  split
  · exact getD_set_zero_zero _ _ hd
  · rfl

lemma dofEnd_getD_succ (asm : AsmG) (ce : ℤ) (k : ℕ) :
    (dofEnd asm ce).getD (k + 1) 0 = asm.ndofs.getD (k + 1) 0 := by
  unfold dofEnd
  split
  · exact getD_set_zero_succ _ _ _
  · rfl

/-- For a valid multi-index, membership in the traversal box is exactly the
axis-0 chunk condition. -/
lemma chunkBox_mem_iff (asm : AsmG) (cs ce : ℤ)
    (hd : 0 < asm.ndofs.length)
    (hle : chunkHi asm ce ≤ asm.ndofs.getD 0 0)
    (x : List ℕ) (hx : ValidIdx asm.ndofs x) :
    InBox (dofStart asm cs) (dofEnd asm ce) x ↔
      chunkLo cs ≤ x.getD 0 0 ∧ x.getD 0 0 < chunkHi asm ce := by
  obtain ⟨hlen, hcomp⟩ := (ValidIdx_iff_getD _ _).mp hx
  rw [InBox_iff_getD]
  constructor
  · rintro ⟨h1, h2, h3⟩
    have h := h3 0 (by rw [dofStart_length]; omega)
    rw [dofStart_getD_zero asm cs hd, dofEnd_getD_zero asm ce hd] at h
    exact h
  · rintro ⟨h1, h2⟩
    refine ⟨by rw [dofStart_length]; omega,
      by rw [dofStart_length, dofEnd_length], fun k hk => ?_⟩
    rw [dofStart_length] at hk
    cases k with
    | zero =>
        rw [dofStart_getD_zero asm cs hd, dofEnd_getD_zero asm ce hd]
        exact ⟨h1, h2⟩
    | succ k =>
        rw [dofStart_getD_succ, dofEnd_getD_succ]
        exact ⟨Nat.zero_le _, hcomp (k + 1) hk⟩

/-- Every multi-index the outer do-while visits is a valid dof index. -/
lemma chunkBox_valid (asm : AsmG) (cs ce : ℤ)
    (hd : 0 < asm.ndofs.length)
    (hle : chunkHi asm ce ≤ asm.ndofs.getD 0 0)
    (x : List ℕ) (hx : InBox (dofStart asm cs) (dofEnd asm ce) x) :
    ValidIdx asm.ndofs x := by
  rw [InBox_iff_getD] at hx
  obtain ⟨h1, h2, h3⟩ := hx
  rw [dofStart_length] at h1 h3
  rw [ValidIdx_iff_getD]
  refine ⟨h1.symm, fun k hk => ?_⟩
  have h := h3 k hk
  cases k with
  | zero =>
      rw [dofEnd_getD_zero asm ce hd] at h
      omega
  | succ k =>
      rw [dofEnd_getD_succ] at h
      exact h.2

lemma chunkBox_start_mem (asm : AsmG) (cs ce : ℤ)
    (hd : 0 < asm.ndofs.length)
    (hpos : ∀ k, k < asm.ndofs.length → 0 < asm.ndofs.getD k 0)
    (hlt : chunkLo cs < chunkHi asm ce) :
    InBox (dofStart asm cs) (dofEnd asm ce) (dofStart asm cs) := by
  rw [InBox_iff_getD]
  refine ⟨rfl, by rw [dofStart_length, dofEnd_length], fun k hk => ?_⟩
  rw [dofStart_length] at hk
  cases k with
  | zero =>
      rw [dofStart_getD_zero asm cs hd, dofEnd_getD_zero asm ce hd]
      exact ⟨le_refl _, hlt⟩
  | succ k =>
      rw [dofStart_getD_succ, dofEnd_getD_succ]
      exact ⟨Nat.zero_le _, hpos (k + 1) hk⟩

/-- The outer do-while enumerates exactly the traversal box, row by row. -/
lemma generic_assemble_flatMap (asm : AsmG) (cs ce : ℤ)
    (hd : 0 < asm.ndofs.length)
    (hpos : ∀ k, k < asm.ndofs.length → 0 < asm.ndofs.getD k 0)
    (hlt : chunkLo cs < chunkHi asm ce)
    (hle : chunkHi asm ce ≤ asm.ndofs.getD 0 0) :
    generic_assemble asm cs ce =
      (boxList (dofStart asm cs) (dofEnd asm ce)).flatMap (rowEmit asm) := by
  have hmem := chunkBox_start_mem asm cs ce hd hpos hlt
  have hlen : (dofStart asm cs).length = (dofEnd asm ce).length := by
    rw [dofStart_length, dofEnd_length]
  rw [generic_assemble_def,
    lexLoop_eq (rowEmit asm) ((dofEnd asm ce).prod + 1) (dofStart asm cs)
      (dofStart asm cs) (dofEnd asm ce) hmem
      (by rw [rectFrom_full _ _ hmem]
          have := boxList_length_le _ _ hlen
          omega),
    rectFrom_full _ _ hmem]

/-- The inner do-while enumerates exactly the neighbor box. -/
lemma rowEmit_flatMap (asm : AsmG) (hgt : GoodTables asm) (i : List ℕ)
    (hi : ValidIdx asm.ndofs i) :
    rowEmit asm i = (boxList (nbrStart asm i) (nbrStop asm i)).flatMap
      (emitEntry asm i (to_seq asm.ndofs i)) := by
  have hbox0 := nbr_box_start asm hgt i hi
  have hlen : (nbrStart asm i).length = (nbrStop asm i).length := by
    rw [nbrStart_length, nbrStop_length]
  rw [rowEmit_def,
    lexLoop_eq (emitEntry asm i (to_seq asm.ndofs i)) ((nbrStop asm i).prod + 1)
      (nbrStart asm i) (nbrStart asm i) (nbrStop asm i) hbox0
      (by rw [rectFrom_full _ _ hbox0]
          have := boxList_length_le _ _ hlen
          omega),
    rectFrom_full _ _ hbox0]

lemma to_seq_lt (ns xs : List ℕ) (h : ValidIdx ns xs) : to_seq ns xs < ns.prod := by
  rw [to_seq_eq_seqVal _ _ (ValidIdx_length _ _ h)]
  exact seqVal_lt _ _ h

/-- Every triplet the traversal emits has coordinates that are linearized
valid multi-indices. -/
lemma assemble_coords_to_seq (asm : AsmG) (hgt : GoodTables asm)
    (hd : 0 < asm.ndofs.length)
    (hpos : ∀ k, k < asm.ndofs.length → 0 < asm.ndofs.getD k 0)
    (cs ce : ℤ) (hlt : chunkLo cs < chunkHi asm ce)
    (hle : chunkHi asm ce ≤ asm.ndofs.getD 0 0)
    (t : ℕ × ℕ × ℚ) (ht : t ∈ generic_assemble asm cs ce) :
    ∃ I J : List ℕ, ValidIdx asm.ndofs I ∧ ValidIdx asm.ndofs J ∧
      t.1 = to_seq asm.ndofs I ∧ t.2.1 = to_seq asm.ndofs J := by
  rw [generic_assemble_flatMap asm cs ce hd hpos hlt hle] at ht
  obtain ⟨i, hiB, hti⟩ := List.mem_flatMap.mp ht
  have hiv := chunkBox_valid asm cs ce hd hle i ((mem_boxList _ _ _).mp hiB)
  rw [rowEmit_flatMap asm hgt i hiv] at hti
  obtain ⟨j, hjB, htj⟩ := List.mem_flatMap.mp hti
  have hjv := nbr_mem_valid asm hgt i hiv j ((mem_boxList _ _ _).mp hjB)
  simp only [emitEntry] at htj
  by_cases hc : to_seq asm.ndofs i ≤ to_seq asm.ndofs j
  · rw [if_pos hc] at htj
    rcases List.mem_cons.mp htj with h | h
    · exact ⟨i, j, hiv, hjv, by rw [h], by rw [h]⟩
    · by_cases hne : to_seq asm.ndofs i ≠ to_seq asm.ndofs j
      · rw [if_pos hne] at h
        have h2 := List.mem_singleton.mp h
        exact ⟨j, i, hjv, hiv, by rw [h2], by rw [h2]⟩
      · rw [if_neg hne] at h
        simp at h
  · rw [if_neg hc] at htj
    simp at htj

/-- Every emitted coordinate is below `N = prod(ndofs)`: the stream fits a
matrix of shape `(N, N)`. -/
lemma assemble_coords_lt (asm : AsmG) (hgt : GoodTables asm)
    (hd : 0 < asm.ndofs.length)
    (hpos : ∀ k, k < asm.ndofs.length → 0 < asm.ndofs.getD k 0)
    (cs ce : ℤ) (hlt : chunkLo cs < chunkHi asm ce)
    (hle : chunkHi asm ce ≤ asm.ndofs.getD 0 0)
    (t : ℕ × ℕ × ℚ) (ht : t ∈ generic_assemble asm cs ce) :
    t.1 < asm.ndofs.prod ∧ t.2.1 < asm.ndofs.prod := by
  obtain ⟨I, J, hIv, hJv, h1, h2⟩ :=
    assemble_coords_to_seq asm hgt hd hpos cs ce hlt hle t ht
  rw [h1, h2]
  exact ⟨to_seq_lt _ _ hIv, to_seq_lt _ _ hJv⟩

lemma cooSum_eq_zero_of_no_match (ts : List (ℕ × ℕ × ℚ)) (a b : ℕ)
    (h : ∀ t ∈ ts, ¬ (t.1 = a ∧ t.2.1 = b)) : cooSum ts a b = 0 := by
  unfold cooSum
  rw [List.filter_eq_nil_iff.mpr (fun t ht => by simpa using h t ht)]
  rfl

lemma sum_map_range_eq_single (N : ℕ) (f : ℕ → ℚ) (k0 : ℕ) (hk : k0 < N)
    (hz : ∀ k, k < N → k ≠ k0 → f k = 0) :
    ((List.range N).map f).sum = f k0 := by
  refine sum_map_eq_single (List.range N) f k0 ?_ ?_
  · exact List.count_eq_one_of_mem (List.nodup_range N) (List.mem_range.mpr hk)
  · intro x hx hne
    exact hz x (List.mem_range.mp hx) hne

lemma chunkLo_natCast (x : ℕ) : chunkLo (x : ℤ) = x := by
  simp [chunkLo]

lemma chunkHi_natCast (asm : AsmG) (x : ℕ) : chunkHi asm (x : ℤ) = x := by
  simp [chunkHi]

/-- The matrix entry of one (possibly chunked) sequential traversal: entry
`(to_seq I, to_seq J)` receives `impl I J` when row `I` is traversed and the
entry is on or above the diagonal, `impl J I` when row `J` is traversed and
the entry is strictly below the diagonal, and nothing otherwise. -/
lemma assemble_cooSum (asm : AsmG) (hgt : GoodTables asm)
    (hvan : VanishOffSupport asm)
    (hd : 0 < asm.ndofs.length)
    (hpos : ∀ k, k < asm.ndofs.length → 0 < asm.ndofs.getD k 0)
    (cs ce : ℤ) (hlt : chunkLo cs < chunkHi asm ce)
    (hle : chunkHi asm ce ≤ asm.ndofs.getD 0 0)
    (I J : List ℕ) (hI : ValidIdx asm.ndofs I) (hJ : ValidIdx asm.ndofs J) :
    cooSum (generic_assemble asm cs ce) (to_seq asm.ndofs I) (to_seq asm.ndofs J) =
      (if chunkLo cs ≤ I.getD 0 0 ∧ I.getD 0 0 < chunkHi asm ce ∧
          to_seq asm.ndofs I ≤ to_seq asm.ndofs J
        then asm.impl I J else 0) +
      (if chunkLo cs ≤ J.getD 0 0 ∧ J.getD 0 0 < chunkHi asm ce ∧
          to_seq asm.ndofs J < to_seq asm.ndofs I
        then asm.impl J I else 0) := by
  rw [generic_assemble_flatMap asm cs ce hd hpos hlt hle, cooSum_flatMap]
  set ds := dofStart asm cs with hds
  set de := dofEnd asm ce with hde
  set a := to_seq asm.ndofs I with ha
  set b := to_seq asm.ndofs J with hb
  have hmapeq : (boxList ds de).map (fun i => cooSum (rowEmit asm i) a b) =
      (boxList ds de).map (fun i =>
        (if i = I ∧ a ≤ b then asm.impl I J else 0) +
        (if i = J ∧ b < a then asm.impl J I else 0)) :=
    List.map_congr_left (fun i hi =>
      rowEmit_cooSum asm hgt hvan i I J
        (chunkBox_valid asm cs ce hd hle i ((mem_boxList _ _ _).mp hi)) hI hJ)
  rw [hmapeq, sum_map_add]
  congr 1
  · by_cases hab : a ≤ b
    · by_cases hIb : InBox ds de I
      · rw [sum_map_eq_single (boxList ds de) _ I ?cnt5 ?zero5]
        case cnt5 => rw [boxList_count, if_pos hIb]
        case zero5 =>
          intro x hx hne
          exact if_neg (fun hc => hne hc.1)
        have hcond := (chunkBox_mem_iff asm cs ce hd hle I hI).mp hIb
        rw [if_pos (⟨rfl, hab⟩ : I = I ∧ a ≤ b), if_pos ⟨hcond.1, hcond.2, hab⟩]
      · rw [sum_map_eq_zero _ _ ?zero6]
        case zero6 =>
          intro x hx
          apply if_neg
          rintro ⟨hxI, _⟩
          exact hIb (hxI ▸ (mem_boxList _ _ _).mp hx)
        rw [if_neg ?neg1]
        case neg1 =>
          rintro ⟨h1, h2, _⟩
          exact hIb ((chunkBox_mem_iff asm cs ce hd hle I hI).mpr ⟨h1, h2⟩)
    · rw [sum_map_eq_zero _ _ (fun x hx => if_neg (fun hc => hab hc.2))]
      rw [if_neg (fun hc => hab hc.2.2)]
  · by_cases hba : b < a
    · by_cases hJb : InBox ds de J
      · rw [sum_map_eq_single (boxList ds de) _ J ?cnt7 ?zero7]
        case cnt7 => rw [boxList_count, if_pos hJb]
        case zero7 =>
          intro x hx hne
          exact if_neg (fun hc => hne hc.1)
        have hcond := (chunkBox_mem_iff asm cs ce hd hle J hJ).mp hJb
        rw [if_pos (⟨rfl, hba⟩ : J = J ∧ b < a), if_pos ⟨hcond.1, hcond.2, hba⟩]
      · rw [sum_map_eq_zero _ _ ?zero8]
        case zero8 =>
          intro x hx
          apply if_neg
          rintro ⟨hxJ, _⟩
          exact hJb (hxJ ▸ (mem_boxList _ _ _).mp hx)
        rw [if_neg ?neg2]
        case neg2 =>
          rintro ⟨h1, h2, _⟩
          exact hJb ((chunkBox_mem_iff asm cs ce hd hle J hJ).mpr ⟨h1, h2⟩)
    · rw [sum_map_eq_zero _ _ (fun x hx => if_neg (fun hc => hba hc.2))]
      rw [if_neg (fun hc => hba hc.2.2)]

/-- C2: `generic_assemble` iterates `j` only over the per-axis neighbor
ranges, evaluates `assemble_impl(i, j)` exactly when `jj >= ii`, emits
`(ii, jj, entry)` plus the mirrored `(jj, ii, entry)` when `ii != jj`, and the
duplicate-summing coo accumulation yields, at every matrix position
`(to_seq I, to_seq J)`, exactly the `assemble_impl` value restricted to the
traversed rows (plus mirrors); moreover every emitted coordinate is below
`N = prod(ndofs)`, so the stream fits the `(N, N)` matrix shape. -/
theorem claim_C2 (asm : AsmG) (hgt : GoodTables asm) (hvan : VanishOffSupport asm)
    (hd : 0 < asm.ndofs.length)
    (hpos : ∀ k, k < asm.ndofs.length → 0 < asm.ndofs.getD k 0)
    (cs ce : ℤ) (hlt : chunkLo cs < chunkHi asm ce)
    (hle : chunkHi asm ce ≤ asm.ndofs.getD 0 0)
    (I J : List ℕ) (hI : ValidIdx asm.ndofs I) (hJ : ValidIdx asm.ndofs J) :
    (∀ t ∈ generic_assemble asm cs ce,
      t.1 < asm.ndofs.prod ∧ t.2.1 < asm.ndofs.prod) ∧
    cooSum (generic_assemble asm cs ce) (to_seq asm.ndofs I) (to_seq asm.ndofs J) =
      (if chunkLo cs ≤ I.getD 0 0 ∧ I.getD 0 0 < chunkHi asm ce ∧
          to_seq asm.ndofs I ≤ to_seq asm.ndofs J
        then asm.impl I J else 0) +
      (if chunkLo cs ≤ J.getD 0 0 ∧ J.getD 0 0 < chunkHi asm ce ∧
          to_seq asm.ndofs J < to_seq asm.ndofs I
        then asm.impl J I else 0) :=
  ⟨fun t ht => assemble_coords_lt asm hgt hd hpos cs ce hlt hle t ht,
   assemble_cooSum asm hgt hvan hd hpos cs ce hlt hle I J hI hJ⟩

/-- A concrete 2-D assembler (2 x 2 dofs, all supports overlapping, zero
kernel) used to instantiate the traversal theorems. -/
def asmEx2 : AsmG :=
  ⟨[2, 2], [[⟨0, 2⟩, ⟨0, 2⟩], [⟨0, 2⟩, ⟨0, 2⟩]], fun _ _ => 0⟩

theorem claim_C2_witness :
    (∀ t ∈ generic_assemble asmEx2 0 2,
      t.1 < asmEx2.ndofs.prod ∧ t.2.1 < asmEx2.ndofs.prod) ∧
    cooSum (generic_assemble asmEx2 0 2)
        (to_seq asmEx2.ndofs [0, 0]) (to_seq asmEx2.ndofs [1, 1]) =
      (if chunkLo 0 ≤ [0, 0].getD 0 0 ∧ [0, 0].getD 0 0 < chunkHi asmEx2 2 ∧
          to_seq asmEx2.ndofs [0, 0] ≤ to_seq asmEx2.ndofs [1, 1]
        then asmEx2.impl [0, 0] [1, 1] else 0) +
      (if chunkLo 0 ≤ [1, 1].getD 0 0 ∧ [1, 1].getD 0 0 < chunkHi asmEx2 2 ∧
          to_seq asmEx2.ndofs [1, 1] < to_seq asmEx2.ndofs [0, 0]
        then asmEx2.impl [1, 1] [0, 0] else 0) :=
  claim_C2 asmEx2 (by decide) (fun _ _ _ => rfl) (by decide) (by decide) 0 2
    (by decide) (by decide) [0, 0] [1, 1] (by decide) (by decide)

/-- Summing a per-chunk indicator over all chunks collapses to a single
term: exactly one chunk index `x / sz` owns the row `x`. -/
lemma chunk_sum_collapse (NC sz x n : ℕ) (v : ℚ) (C : Prop) [Decidable C]
    (hcov : x / sz < NC ∧ (x / sz) * sz ≤ x ∧ x < min ((x / sz) * sz + sz) n) :
    ((List.range NC).map (fun k =>
      if k * sz ≤ x ∧ x < min (k * sz + sz) n ∧ C then v else 0)).sum =
    if C then v else 0 := by
  obtain ⟨hk0, hle0, hlt0⟩ := hcov
  by_cases hC : C
  · rw [if_pos hC]
    rw [sum_map_range_eq_single NC _ (x / sz) hk0 ?hz]
    case hz =>
      intro k hkN hne
      apply if_neg
      rintro ⟨h1, h2, _⟩
      have h2l : x < k * sz + sz := lt_of_lt_of_le h2 (min_le_left _ _)
      have hdiv : x / sz = k :=
        Nat.div_eq_of_lt_le h1 (by rw [Nat.succ_mul]; exact h2l)
      exact hne hdiv.symm
    rw [if_pos ⟨hle0, hlt0, hC⟩]
  · rw [if_neg hC]
    apply sum_map_eq_zero
    intro k hk
    exact if_neg (fun hc => hC hc.2.2)

lemma generic_assemble_parallel_le (asm : AsmG) (W : ℕ) (hW : W ≤ 1) (a b : ℕ) :
    generic_assemble_parallel asm W a b =
      cooSum (generic_assemble asm (-1) (-1)) a b := by
  unfold generic_assemble_parallel
  rw [if_pos hW]

lemma generic_assemble_parallel_gt (asm : AsmG) (W : ℕ) (hW : ¬ W ≤ 1) (a b : ℕ) :
    generic_assemble_parallel asm W a b =
      ((chunk_tasks (asm.ndofs.getD 0 0) (4 * W)).map
        (fun rg => cooSum (generic_assemble asm (rg.1 : ℤ) (rg.2 : ℤ)) a b)).sum := by
  unfold generic_assemble_parallel
  rw [if_neg hW]

/-- Summing the per-chunk coo matrices over any chunking of the axis-0 dof
range reproduces the sequential full-range coo matrix, entry by entry. -/
lemma parallel_sum_eq (asm : AsmG) (hgt : GoodTables asm)
    (hvan : VanishOffSupport asm)
    (hd : 0 < asm.ndofs.length)
    (hpos : ∀ k, k < asm.ndofs.length → 0 < asm.ndofs.getD k 0)
    (n m : ℕ) (hn : asm.ndofs.getD 0 0 = n) (a b : ℕ) :
    ((chunk_tasks n m).map
      (fun rg => cooSum (generic_assemble asm (rg.1 : ℤ) (rg.2 : ℤ)) a b)).sum =
    cooSum (generic_assemble asm (-1) (-1)) a b := by
  have hn0 : 0 < n := by rw [← hn]; exact hpos 0 hd
  have hhi : chunkHi asm (-1) = n := by
    unfold chunkHi
    rw [if_neg (by decide : ¬ (0 : ℤ) ≤ -1)]
    exact hn
  have hlo : chunkLo (-1) = 0 := by decide
  have hltseq : chunkLo (-1) < chunkHi asm (-1) := by rw [hlo, hhi]; exact hn0
  have hleseq : chunkHi asm (-1) ≤ asm.ndofs.getD 0 0 := by rw [hhi, hn]
  have hconv : chunk_tasks n m =
      (List.range ((n + (n / m + 1) - 1) / (n / m + 1))).map
        (fun k => (k * (n / m + 1), min (k * (n / m + 1) + (n / m + 1)) n)) := rfl
  rw [hconv, List.map_map]
  have hcomp : ((fun rg : ℕ × ℕ =>
        cooSum (generic_assemble asm (rg.1 : ℤ) (rg.2 : ℤ)) a b) ∘
      (fun k => (k * (n / m + 1), min (k * (n / m + 1) + (n / m + 1)) n))) =
      (fun k => cooSum (generic_assemble asm ((k * (n / m + 1) : ℕ) : ℤ)
        ((min (k * (n / m + 1) + (n / m + 1)) n : ℕ) : ℤ)) a b) := rfl
  rw [hcomp]
  have hchunkfacts : ∀ k, k < (n + (n / m + 1) - 1) / (n / m + 1) →
      chunkLo ((k * (n / m + 1) : ℕ) : ℤ) <
        chunkHi asm ((min (k * (n / m + 1) + (n / m + 1)) n : ℕ) : ℤ) ∧
      chunkHi asm ((min (k * (n / m + 1) + (n / m + 1)) n : ℕ) : ℤ) ≤
        asm.ndofs.getD 0 0 := by
    intro k hk
    rw [chunkLo_natCast, chunkHi_natCast, hn]
    have hstart : k * (n / m + 1) < n :=
      ceil_index_mul_lt n (n / m + 1) k (Nat.succ_pos _) hk
    exact ⟨lt_min (Nat.lt_add_of_pos_right (Nat.succ_pos _)) hstart,
      min_le_right _ _⟩
  by_cases hex : (∃ I, ValidIdx asm.ndofs I ∧ to_seq asm.ndofs I = a) ∧
      (∃ J, ValidIdx asm.ndofs J ∧ to_seq asm.ndofs J = b)
  · obtain ⟨⟨I, hIv, hIa⟩, J, hJv, hJb⟩ := hex
    subst hIa
    subst hJb
    have hI0 : I.getD 0 0 < n := by
      rw [← hn]; exact ((ValidIdx_iff_getD _ _).mp hIv).2 0 hd
    have hJ0 : J.getD 0 0 < n := by
      rw [← hn]; exact ((ValidIdx_iff_getD _ _).mp hJv).2 0 hd
    rw [assemble_cooSum asm hgt hvan hd hpos (-1) (-1) hltseq hleseq I J hIv hJv,
      hlo, hhi]
    have hmap2 : ∀ k ∈ List.range ((n + (n / m + 1) - 1) / (n / m + 1)),
        cooSum (generic_assemble asm ((k * (n / m + 1) : ℕ) : ℤ)
          ((min (k * (n / m + 1) + (n / m + 1)) n : ℕ) : ℤ))
          (to_seq asm.ndofs I) (to_seq asm.ndofs J) =
        (if k * (n / m + 1) ≤ I.getD 0 0 ∧
            I.getD 0 0 < min (k * (n / m + 1) + (n / m + 1)) n ∧
            to_seq asm.ndofs I ≤ to_seq asm.ndofs J
          then asm.impl I J else 0) +
        (if k * (n / m + 1) ≤ J.getD 0 0 ∧
            J.getD 0 0 < min (k * (n / m + 1) + (n / m + 1)) n ∧
            to_seq asm.ndofs J < to_seq asm.ndofs I
          then asm.impl J I else 0) := by
      intro k hk
      obtain ⟨h1, h2⟩ := hchunkfacts k (List.mem_range.mp hk)
      rw [assemble_cooSum asm hgt hvan hd hpos _ _ h1 h2 I J hIv hJv,
        chunkLo_natCast, chunkHi_natCast]
    rw [List.map_congr_left hmap2, sum_map_add]
    have hcovI := chunk_tasks_cover n m (I.getD 0 0) hI0
    rw [chunk_tasks_length] at hcovI
    have hcovJ := chunk_tasks_cover n m (J.getD 0 0) hJ0
    rw [chunk_tasks_length] at hcovJ
    rw [chunk_sum_collapse _ _ _ _ _ _ hcovI, chunk_sum_collapse _ _ _ _ _ _ hcovJ]
    congr 1
    · exact if_congr ⟨fun h => ⟨Nat.zero_le _, hI0, h⟩, fun h => h.2.2⟩ rfl rfl
    · exact if_congr ⟨fun h => ⟨Nat.zero_le _, hJ0, h⟩, fun h => h.2.2⟩ rfl rfl
  · have hzero : ∀ (cs ce : ℤ), chunkLo cs < chunkHi asm ce →
        chunkHi asm ce ≤ asm.ndofs.getD 0 0 →
        cooSum (generic_assemble asm cs ce) a b = 0 := by
      intro cs ce h1 h2
      apply cooSum_eq_zero_of_no_match
      intro t ht hab2
      obtain ⟨I, J, hIv, hJv, hta, htb⟩ :=
        assemble_coords_to_seq asm hgt hd hpos cs ce h1 h2 t ht
      exact hex ⟨⟨I, hIv, hta.symm.trans hab2.1⟩, ⟨J, hJv, htb.symm.trans hab2.2⟩⟩
    rw [hzero (-1) (-1) hltseq hleseq]
    apply sum_map_eq_zero
    intro k hk
    obtain ⟨h1, h2⟩ := hchunkfacts k (List.mem_range.mp hk)
    exact hzero _ _ h1 h2

/-- C1: the parallel driver produces exactly the same matrix as one
sequential full-range run, entry by entry, for every worker count `W`: with
`W <= 1` it calls the sequential path directly, and with `W > 1` the
coordinate-wise sum of the per-chunk matrices over
`chunk_tasks(range(ndofs[0]), 4*W)` equals the sequential result. -/
theorem claim_C1 (asm : AsmG) (hgt : GoodTables asm) (hvan : VanishOffSupport asm)
    (hd : 0 < asm.ndofs.length)
    (hpos : ∀ k, k < asm.ndofs.length → 0 < asm.ndofs.getD k 0)
    (W a b : ℕ) :
    generic_assemble_parallel asm W a b =
      cooSum (generic_assemble asm (-1) (-1)) a b := by
  by_cases hW : W ≤ 1
  · exact generic_assemble_parallel_le asm W hW a b
  · rw [generic_assemble_parallel_gt asm W hW a b]
    exact parallel_sum_eq asm hgt hvan hd hpos (asm.ndofs.getD 0 0) (4 * W) rfl a b

theorem claim_C1_witness :
    generic_assemble_parallel asmEx2 3 0 1 =
      cooSum (generic_assemble asmEx2 (-1) (-1)) 0 1 :=
  claim_C1 asmEx2 (by decide) (fun _ _ _ => rfl) (by decide) (by decide) 3 0 1

end PyIga
